import Mathlib

/- A shallow embedding of the stateful core of ilo-toki (src/main.rs):
   per-channel timeline reconciliation (handle_new_message and the sync event
   handler), the modal input editor with UTF-8 dual cursor tracking, the
   cursor wrap math of main_ui, and the Enter / redact / backfill key
   handlers of ui_events.  Machine integers are modelled as Nat, with
   explicit % 65536 where the source performs u16 arithmetic. -/

namespace IloToki

abbrev EventId := Nat
abbrev RoomId := Nat

/-- Message struct of main.rs (its timestamp field is origin_server_ts.as_secs(),
    i.e. milliseconds divided by 1000). -/
structure Message where
  id : EventId
  user : String
  edited : Bool
  content : String
  timestamp : Nat
deriving DecidableEq

/-- Edit struct of main.rs, the pending-edit cache entry
    (its timestamp field is origin_server_ts.0, i.e. raw milliseconds). -/
structure Edit where
  content : String
  timestamp : Nat
deriving DecidableEq

/-- Association-list model of std HashMap lookup: the first binding of the key. -/
def mapGet : List (Nat × α) → Nat → Option α
  | [], _ => none
  | (k', v) :: rest, k => if k' = k then some v else mapGet rest k

/-- HashMap::contains_key. -/
def mapContains (m : List (Nat × α)) (k : Nat) : Bool :=
  (mapGet m k).isSome

/-- HashMap::insert: replace the first binding of the key, or append a new one. -/
def mapInsert : List (Nat × α) → Nat → α → List (Nat × α)
  | [], k, v => [(k, v)]
  | (k', v') :: rest, k, v =>
    if k' = k then (k, v) :: rest else (k', v') :: mapInsert rest k v

/-- HashMap::remove: drop every binding of the key. -/
def mapRemove : List (Nat × α) → Nat → List (Nat × α)
  | [], _ => []
  | (k', v) :: rest, k =>
    if k' = k then mapRemove rest k else (k', v) :: mapRemove rest k

/-- Channel struct of main.rs.  The Joined room handle is an external network
    handle and carries no local state, so it is omitted. -/
structure Channel where
  name : String
  message_ids : List EventId
  messages : List (EventId × Message)
  message_edits : List (EventId × Edit)
  at_top : Bool
  messages_prev_batch : Option String
deriving DecidableEq

/-- A channel as freshly created in main.rs (empty order, maps, at_top false,
    no pagination token). -/
def emptyChannel (name : String) : Channel :=
  { name := name
    message_ids := []
    messages := []
    message_edits := []
    at_top := false
    messages_prev_batch := none }

/-- Relation::Replacement payload: the target event id and the replacement body
    (edit.new_content.body()). -/
structure Replacement where
  event_id : EventId
  new_content : String
deriving DecidableEq

/-- OriginalSyncMessageLikeEvent<RoomMessageEventContent>, restricted to the fields
    handle_new_message reads.  relates_to = none covers both the absence of a
    relation and every non-Replacement relation: all of those take the catch-all
    arm of the source match.  origin_server_ts is in milliseconds. -/
structure Ev where
  event_id : EventId
  sender : String
  body : String
  relates_to : Option Replacement
  origin_server_ts : Nat
deriving DecidableEq

/-- The guard of the insertion scan at index j (main.rs line 229):
    channel.messages.get(&channel.message_ids[j]).map(|v| v.timestamp <= ts).unwrap_or(false). -/
def condAt (msgs : List (EventId × Message)) (ids : List EventId) (ts j : Nat) : Bool :=
  match ids.get? j with
  | none => false
  | some mid =>
    match mapGet msgs mid with
    | none => false
    | some m => decide (m.timestamp ≤ ts)

/-- The insertion scan of handle_new_message (main.rs lines 222-243):
    for i in (0..=len).rev() — insert at 0 once i reaches 0, else at i as soon as
    the entry at i-1 has timestamp <= the new timestamp. -/
def insertPosGo (msgs : List (EventId × Message)) (ids : List EventId) (ts : Nat) : Nat → Nat
  | 0 => 0
  | i + 1 => if condAt msgs ids ts i then i + 1 else insertPosGo msgs ids ts i

/-- The index at which the new message id is inserted into message_ids. -/
def insertPos (msgs : List (EventId × Message)) (ids : List EventId) (ts : Nat) : Nat :=
  insertPosGo msgs ids ts ids.length

/-- Vec::insert at index i (requires i <= length in the source; total here). -/
def vecInsert (l : List α) (i : Nat) (a : α) : List α :=
  l.take i ++ a :: l.drop i

/-- The mutation performed on an existing target message by the Replacement arm
    (main.rs lines 180-183): set edited, overwrite the body. -/
def applyEditToMessage (edit : Replacement) (m : Message) : Message :=
  { m with edited := true, content := edit.new_content }

/-- The Replacement arm of handle_new_message (main.rs lines 178-205): an
    existing target is overwritten unconditionally; otherwise the pending-edit
    cache is filled, an occupied slot being replaced only when the stored
    timestamp is strictly smaller than the incoming one. -/
def applyEditEvent (e : Ev) (edit : Replacement) (ch : Channel) : Channel :=
  match mapGet ch.messages edit.event_id with
  | some m =>
    { ch with messages := mapInsert ch.messages edit.event_id (applyEditToMessage edit m) }
  | none =>
    let e' : Edit := { content := edit.new_content, timestamp := e.origin_server_ts }
    match mapGet ch.message_edits edit.event_id with
    | some prev =>
      if prev.timestamp < e.origin_server_ts then
        { ch with message_edits := mapInsert ch.message_edits edit.event_id e' }
      else ch
    | none => { ch with message_edits := mapInsert ch.message_edits edit.event_id e' }

/-- The messages_state adjustment of the insertion loop (main.rs lines 233-239):
    performed only in the break arm at i > 0, and only when the selected index
    equals i exactly, in which case it is decremented by one. -/
def selAdjust (i : Nat) (sel : Option Nat) : Option Nat :=
  if i = 0 then sel
  else
    match sel with
    | some s => if s = i then some (s - 1) else sel
    | none => none

/-- The catch-all (non-edit) arm of handle_new_message (main.rs lines 208-243):
    build the Message, fold in a cached pending edit if one exists (removing it),
    insert the id at the scanned position, and adjust the selection. -/
def insertNewMessage (e : Ev) (ch : Channel) (sel : Option Nat) : Channel × Option Nat :=
  let m0 : Message :=
    { id := e.event_id, user := e.sender, edited := false,
      content := e.body, timestamp := e.origin_server_ts / 1000 }
  let m : Message :=
    match mapGet ch.message_edits e.event_id with
    | some pe => { m0 with edited := true, content := pe.content }
    | none => m0
  let edits : List (EventId × Edit) :=
    match mapGet ch.message_edits e.event_id with
    | some _ => mapRemove ch.message_edits e.event_id
    | none => ch.message_edits
  let i := insertPos ch.messages ch.message_ids m.timestamp
  ({ ch with
     message_ids := vecInsert ch.message_ids i m.id
     messages := mapInsert ch.messages m.id m
     message_edits := edits },
   selAdjust i sel)

/-- handle_new_message (main.rs lines 171-246), acting on the channel the room id
    resolves to, paired with the messages_state selection (the only other piece of
    AppState the function touches): the duplicate-delivery guard, then the
    Replacement arm or the catch-all insertion arm. -/
def handle_new_message (ev : Ev) (st : Channel × Option Nat) : Channel × Option Nat :=
  if mapContains st.1.messages ev.event_id then st
  else
    match ev.relates_to with
    | some edit => (applyEditEvent ev edit st.1, st.2)
    | none => insertNewMessage ev st.1 st.2

/-- Folding a list of events through handle_new_message, in the order delivered
    (live sync order, or the order a backfill page provides). -/
def applyEvents (evs : List Ev) (st : Channel × Option Nat) : Channel × Option Nat :=
  evs.foldl (fun st ev => handle_new_message ev st) st

/-- SyncRoomMessageEvent as the registered event handler receives it:
    an original room message, or the redacted form of one. -/
inductive SyncEvent
  | original (ev : Ev)
  | redacted (target : EventId)

/-- The event-handler body of main.rs lines 116-138 once the channel exists:
    Original events go to handle_new_message; the Redacted arm is
    SyncMessageLikeEvent::Redacted(_) => (), which does nothing.  No handler for
    room redaction events is registered anywhere in the program, so no code path
    ever removes a message from message_ids or messages. -/
def handle_sync_event : SyncEvent → Channel × Option Nat → Channel × Option Nat
  | .original ev, st => handle_new_message ev st
  | .redacted _, st => st

/-- Timestamp of the stored message for an id (0 if absent; the reconciler
    invariant rules absence out for members of message_ids). -/
def tsOf (msgs : List (EventId × Message)) (id : EventId) : Nat :=
  match mapGet msgs id with
  | some m => m.timestamp
  | none => 0

/-- Arrival index of an id: position of the first non-edit event carrying it
    (evs.length when there is none).  Used to state insertion-order stability. -/
def firstNewIdx (evs : List Ev) (id : EventId) : Nat :=
  evs.findIdx (fun e => e.relates_to.isNone && (e.event_id == id))

/-- The reconciler invariant after processing the event list evs:
    message_ids and the messages map have the same members, without duplicates,
    sorted non-decreasing by stored timestamp, with ties ordered by arrival
    index, and membership is exactly "some non-edit event carried this id". -/
structure ReconInv (evs : List Ev) (ch : Channel) : Prop where
  member_isSome : ∀ id ∈ ch.message_ids, (mapGet ch.messages id).isSome = true
  isSome_member : ∀ id, (mapGet ch.messages id).isSome = true → id ∈ ch.message_ids
  nodup : ch.message_ids.Nodup
  sorted : ch.message_ids.Pairwise (fun a b => tsOf ch.messages a ≤ tsOf ch.messages b)
  stable : ch.message_ids.Pairwise (fun a b =>
    tsOf ch.messages a = tsOf ch.messages b → firstNewIdx evs a < firstNewIdx evs b)
  arrival : ∀ id, (mapGet ch.messages id).isSome = true ↔ firstNewIdx evs id < evs.length

/-- Total UTF-8 byte length of the text (String::bytes().len()). -/
def utf8Len : List Char → Nat
  | [] => 0
  | c :: rest => c.utf8Size + utf8Len rest

/-- String::is_char_boundary at byte index p. -/
def isBoundary : List Char → Nat → Bool
  | _, 0 => true
  | [], _ + 1 => false
  | c :: rest, p + 1 =>
    if p + 1 < c.utf8Size then false else isBoundary rest (p + 1 - c.utf8Size)

/-- The backward boundary scan of main.rs (lines 386-391 and the two copies):
    i starts at 1 and increments while !text.is_char_boundary(pos - i).
    The loop is entered only with pos > 0 and byte 0 is always a boundary, so
    pos steps of fuel make the loop total with identical behaviour. -/
def backScanGo (s : List Char) (pos : Nat) : Nat → Nat → Nat
  | 0, i => i
  | fuel + 1, i => if isBoundary s (pos - i) then i else backScanGo s pos fuel (i + 1)

def backScan (s : List Char) (pos : Nat) : Nat :=
  backScanGo s pos pos 1

/-- The forward boundary scan (lines 442-447 and the copy): i starts at 1 and
    increments while !text.is_char_boundary(pos + i).  The loop is entered only
    with pos < byte length and the end of the text is a boundary, so a byte
    length of fuel makes the loop total with identical behaviour. -/
def fwdScanGo (s : List Char) (pos : Nat) : Nat → Nat → Nat
  | 0, i => i
  | fuel + 1, i => if isBoundary s (pos + i) then i else fwdScanGo s pos fuel (i + 1)

def fwdScan (s : List Char) (pos : Nat) : Nat :=
  fwdScanGo s pos (utf8Len s) 1

/-- The char index a byte offset corresponds to (meaningful on boundaries:
    String::insert and String::remove address a byte offset, and on the
    char-list model they splice at this char index). -/
def charIdxAt : List Char → Nat → Nat
  | _, 0 => 0
  | [], _ + 1 => 0
  | c :: rest, p + 1 =>
    if p + 1 < c.utf8Size then 0 else 1 + charIdxAt rest (p + 1 - c.utf8Size)

/-- The input-editor fields of AppState. -/
structure InputSt where
  input_text : List Char
  input_char_pos : Nat
  input_byte_pos : Nat
deriving DecidableEq

/-- The initial AppState input fields (String::new, 0, 0). -/
def inputInit : InputSt :=
  { input_text := [], input_char_pos := 0, input_byte_pos := 0 }

inductive InputOp
  | ins (c : Char)
  | backspace
  | left
  | right
deriving DecidableEq

/-- KeyCode::Char(c) in Insert mode (main.rs lines 452-457): insert at the byte
    position, advance byte_pos by the encoded length, advance char_pos by 1. -/
def insertChar (c : Char) (st : InputSt) : InputSt :=
  let k := charIdxAt st.input_text st.input_byte_pos
  { input_text := st.input_text.take k ++ c :: st.input_text.drop k
    input_byte_pos := st.input_byte_pos + c.utf8Size
    input_char_pos := st.input_char_pos + 1 }

/-- KeyCode::Backspace in Insert mode (main.rs lines 385-396). -/
def backspaceOp (st : InputSt) : InputSt :=
  if 0 < st.input_byte_pos then
    let i := backScan st.input_text st.input_byte_pos
    let pos := st.input_byte_pos - i
    let k := charIdxAt st.input_text pos
    { input_text := st.input_text.take k ++ st.input_text.drop (k + 1)
      input_byte_pos := pos
      input_char_pos := st.input_char_pos - 1 }
  else st

/-- KeyCode::Left in Insert mode (lines 430-439) and h/Left in Normal mode
    (lines 536-545), identical code. -/
def moveLeft (st : InputSt) : InputSt :=
  if 0 < st.input_byte_pos then
    let i := backScan st.input_text st.input_byte_pos
    { st with
      input_byte_pos := st.input_byte_pos - i
      input_char_pos := st.input_char_pos - 1 }
  else st

/-- KeyCode::Right in Insert mode (lines 441-450) and l/Right in Normal mode
    (lines 547-556), identical code. -/
def moveRight (st : InputSt) : InputSt :=
  if st.input_byte_pos < utf8Len st.input_text then
    let i := fwdScan st.input_text st.input_byte_pos
    { st with
      input_byte_pos := st.input_byte_pos + i
      input_char_pos := st.input_char_pos + 1 }
  else st

def inputStep : InputOp → InputSt → InputSt
  | .ins c => insertChar c
  | .backspace => backspaceOp
  | .left => moveLeft
  | .right => moveRight

def applyInputOps (ops : List InputOp) (st : InputSt) : InputSt :=
  ops.foldl (fun st op => inputStep op st) st

/-- The dual-cursor invariant: char_pos indexes a char of the text (or its end)
    and byte_pos is the UTF-8 byte length of that char-count text prelude, hence
    a code-point boundary with exactly char_pos scalar values before it. -/
def InputInv (st : InputSt) : Prop :=
  st.input_char_pos ≤ st.input_text.length ∧
  st.input_byte_pos = utf8Len (st.input_text.take st.input_char_pos)

instance (st : InputSt) : Decidable (InputInv st) := by
  unfold InputInv; infer_instance

inductive Mode
  | insert
  | normal
  | selectChannel
  | scrollMessages
deriving DecidableEq

/-- The AppState fields the Enter and redact key handlers consult. -/
structure AppState where
  channels : List (RoomId × Channel)
  current_channel : Option RoomId
  messages_state : Option Nat
  input_text : List Char
  input_char_pos : Nat
  input_byte_pos : Nat
  mode : Mode
deriving DecidableEq

/-- Outcome of an external network call. -/
inductive NetResult
  | ok
  | err
deriving DecidableEq

def quitText : List Char := "/quit".data

/-- The Enter-key handler, textually identical in the Insert (main.rs lines
    398-416) and Normal (lines 489-507) arms of ui_events.  Result none models
    the unrecovered failure of room.send(..).await.unwrap() on NetResult.err
    (which aborts the handler task before the buffer is cleared); otherwise the
    result carries (new state, RUNNING flag afterwards, dispatched send request). -/
def uiEnterStep (st : AppState) (send_result : NetResult) :
    Option (AppState × Bool × Option (RoomId × List Char)) :=
  if st.input_text = quitText then some (st, false, none)
  else if st.input_text ≠ [] then
    match st.current_channel with
    | some cid =>
      match mapGet st.channels cid with
      | some _ =>
        match send_result with
        | .err => none
        | .ok =>
          some ({ st with input_text := [], input_char_pos := 0, input_byte_pos := 0 },
            true, some (cid, st.input_text))
      | none =>
        some ({ st with input_text := [], input_char_pos := 0, input_byte_pos := 0 },
          true, none)
    | none =>
      some ({ st with input_text := [], input_char_pos := 0, input_byte_pos := 0 },
        true, none)
  else some (st, true, none)

/-- The Ctrl-d redact handler in ScrollMessages mode (main.rs lines 742-754).
    joined is whether client.get_joined_room returns Some (an external lookup).
    Result none models the unrecovered failure of redact(..).await.unwrap() on
    NetResult.err; on every other path the local state is returned unchanged
    (the handler performs no local mutation at all). -/
def uiRedactStep (st : AppState) (joined : Bool) (redact_result : NetResult) :
    Option AppState :=
  match st.current_channel with
  | none => some st
  | some cid =>
    match mapGet st.channels cid with
    | none => some st
    | some ch =>
      if joined then
        match st.messages_state with
        | none => some st
        | some index =>
          match ch.message_ids.get? (ch.message_ids.length - index - 1) with
          | none => some st
          | some _ =>
            match redact_result with
            | .err => none
            | .ok => some st
      else some st

/-- The backward-pagination body of ui_events (main.rs lines 686-701), reached
    when the scroll cursor already sits at the oldest loaded message.  fetch is
    the room.messages(options) outcome: none a failed call (if let Ok fails and
    nothing happens), some (end_token, chunk) a page whose chunk lists the events
    that deserialize to original room messages, in page order. -/
def applyBackfill (st : Channel × Option Nat)
    (fetch : Option (Option String × List Ev)) : Channel × Option Nat :=
  if st.1.at_top then st
  else
    match fetch with
    | none => st
    | some (tok, chunk) =>
      applyEvents chunk
        ({ st.1 with at_top := tok.isNone, messages_prev_batch := tok }, st.2)

/-- Wrapping 16-bit addition. -/
def u16add (a b : Nat) : Nat := (a + b) % 65536

/-- Wrapping 16-bit subtraction (operands below 65536). -/
def u16sub (a b : Nat) : Nat := (a + 65536 - b) % 65536

/-- The cursor projection of main_ui, identical in the Insert (main.rs lines
    321-338) and Normal (lines 340-357) arms: char_pos is cast usize -> u16,
    width, x, y are u16 Rect fields of the input widget, and every +, -, /, % is
    u16 arithmetic.  Returns the (column, row) passed to set_cursor. -/
def cursorPosCode (char_pos width x y : Nat) : Nat × Nat :=
  let cp := char_pos % 65536
  let w := u16sub width 2
  let m := cp % w
  if m = 0 ∧ char_pos ≠ 0 then
    (u16sub (u16add x width) 1, u16add (u16add y (u16sub cp 1 / w)) 1)
  else
    (u16add (u16add x m) 1, u16add (u16add y (cp / w)) 1)

/-- Reference formula following the words of the spec (sections 4.1 and 8), for
    comparison with cursorPosCode: m = char_pos mod w; on a wrap boundary the
    cursor sits at 0-based column w of row (char_pos - 1) / w, otherwise at
    column m of row char_pos / w; both offset by the widget origin (x, y) and a
    1-cell border inset. -/
def cursorPosSpec (char_pos w x y : Nat) : Nat × Nat :=
  let m := char_pos % w
  if m = 0 ∧ char_pos ≠ 0 then (x + w + 1, y + (char_pos - 1) / w + 1)
  else (x + m + 1, y + char_pos / w + 1)

/-- Fixture: a plain (non-edit) message event. -/
def exEv (id ts : Nat) (body : String) : Ev :=
  { event_id := id, sender := "u", body := body, relates_to := none,
    origin_server_ts := ts }

/-- Fixture: an edit (Relation::Replacement) event targeting another id. -/
def exEditEv (id target ts : Nat) (body : String) : Ev :=
  { event_id := id, sender := "u", body := "* x", relates_to := some ⟨target, body⟩,
    origin_server_ts := ts }

/-- Fixture: a channel holding messages 1, 2, 3 at timestamps 1, 2, 3 seconds. -/
def exChannel : Channel :=
  (applyEvents [exEv 1 1000 "a", exEv 2 2000 "b", exEv 3 3000 "c"]
    (emptyChannel "room", none)).1

/-- Fixture: an AppState with one channel, selected, and the text "hi". -/
def exApp : AppState :=
  { channels := [(1, exChannel)], current_channel := some 1, messages_state := some 0,
    input_text := "hi".data, input_char_pos := 2, input_byte_pos := 2, mode := .normal }

/- ---------------------------------------------------------------------------
   Lemmas about the association-list model of HashMap.
--------------------------------------------------------------------------- -/

theorem mapGet_insert (m : List (Nat × α)) (k k' : Nat) (v : α) :
    mapGet (mapInsert m k v) k' = if k = k' then some v else mapGet m k' := by
  induction m with
  | nil => simp [mapInsert, mapGet]
  | cons p rest ih =>
    obtain ⟨a, b⟩ := p
    simp only [mapInsert]
    by_cases hak : a = k
    · subst hak
      simp only [if_pos rfl, mapGet]
      by_cases hk : a = k' <;> simp [mapGet, hk]
    · rw [if_neg hak]
      by_cases ha' : a = k'
      · have hk : k ≠ k' := fun h => hak (h.symm ▸ ha')
        simp [mapGet, ha', hk]
      · simp only [mapGet, if_neg ha']
        rw [ih]

theorem mapGet_insert_self (m : List (Nat × α)) (k : Nat) (v : α) :
    mapGet (mapInsert m k v) k = some v := by
  simp [mapGet_insert]

theorem mapGet_insert_ne (m : List (Nat × α)) (k k' : Nat) (v : α) (h : k ≠ k') :
    mapGet (mapInsert m k v) k' = mapGet m k' := by
  simp [mapGet_insert, h]

theorem mapGet_remove (m : List (Nat × α)) (k k' : Nat) :
    mapGet (mapRemove m k) k' = if k = k' then none else mapGet m k' := by
  induction m with
  | nil => simp [mapRemove, mapGet]
  | cons p rest ih =>
    obtain ⟨a, b⟩ := p
    simp only [mapRemove]
    by_cases hak : a = k
    · subst hak
      rw [if_pos rfl, ih]
      by_cases hk : a = k'
      · simp [hk]
      · simp [mapGet, hk]
    · rw [if_neg hak]
      by_cases ha' : a = k'
      · subst ha'
        have hk : k ≠ a := fun h => hak h.symm
        simp [mapGet, hk]
      · simp [mapGet, ha', ih]

theorem mapContains_false_get (m : List (Nat × α)) (k : Nat)
    (h : mapContains m k = false) : mapGet m k = none := by
  unfold mapContains at h
  cases hg : mapGet m k with
  | none => rfl
  | some v => rw [hg] at h; simp at h

theorem tsOf_insert (m : List (EventId × Message)) (k id : EventId) (v : Message) :
    tsOf (mapInsert m k v) id = if k = id then v.timestamp else tsOf m id := by
  unfold tsOf
  rw [mapGet_insert]
  by_cases h : k = id <;> simp [h]

/- ---------------------------------------------------------------------------
   Lemmas about the insertion scan.
--------------------------------------------------------------------------- -/

theorem insertPosGo_le (msgs : List (EventId × Message)) (ids : List EventId)
    (ts : Nat) : ∀ n, insertPosGo msgs ids ts n ≤ n := by
  intro n
  induction n with
  | zero => simp [insertPosGo]
  | succ k ih =>
    unfold insertPosGo
    split
    · exact Nat.le_refl _
    · exact Nat.le_trans ih (Nat.le_succ k)

theorem insertPosGo_zero_or_cond (msgs : List (EventId × Message)) (ids : List EventId)
    (ts : Nat) : ∀ n, insertPosGo msgs ids ts n = 0 ∨
      condAt msgs ids ts (insertPosGo msgs ids ts n - 1) = true := by
  intro n
  induction n with
  | zero => left; rfl
  | succ k ih =>
    unfold insertPosGo
    split
    · next h => right; simpa using h
    · exact ih

theorem insertPosGo_not_cond (msgs : List (EventId × Message)) (ids : List EventId)
    (ts : Nat) : ∀ n j, insertPosGo msgs ids ts n ≤ j → j < n →
      condAt msgs ids ts j = false := by
  intro n
  induction n with
  | zero => intro j _ hj; exact absurd hj (Nat.not_lt_zero j)
  | succ k ih =>
    intro j hle hlt
    unfold insertPosGo at hle
    by_cases hc : condAt msgs ids ts k = true
    · rw [if_pos hc] at hle
      exact absurd hlt (Nat.not_lt.mpr hle)
    · rw [if_neg hc] at hle
      rcases Nat.lt_succ_iff_lt_or_eq.mp hlt with h | h
      · exact ih j hle h
      · subst h
        exact Bool.eq_false_iff.mpr hc

theorem insertPos_le_length (msgs : List (EventId × Message)) (ids : List EventId)
    (ts : Nat) : insertPos msgs ids ts ≤ ids.length :=
  insertPosGo_le msgs ids ts ids.length

/- ---------------------------------------------------------------------------
   Lemmas about Vec::insert on the list model.
--------------------------------------------------------------------------- -/

theorem mem_vecInsert {l : List α} {x a : α} {i : Nat} :
    a ∈ vecInsert l i x ↔ a = x ∨ a ∈ l := by
  unfold vecInsert
  constructor
  · intro h
    rcases List.mem_append.mp h with h | h
    · exact Or.inr (List.mem_of_mem_take h)
    · rcases List.mem_cons.mp h with h | h
      · exact Or.inl h
      · exact Or.inr (List.mem_of_mem_drop h)
  · intro h
    rcases h with h | h
    · exact List.mem_append.mpr (Or.inr (List.mem_cons.mpr (Or.inl h)))
    · rw [← List.take_append_drop i l] at h
      rcases List.mem_append.mp h with h | h
      · exact List.mem_append.mpr (Or.inl h)
      · exact List.mem_append.mpr (Or.inr (List.mem_cons.mpr (Or.inr h)))

theorem nodup_vecInsert {l : List α} {x : α} {i : Nat}
    (hl : l.Nodup) (hx : x ∉ l) : (vecInsert l i x).Nodup := by
  unfold vecInsert
  rw [← List.take_append_drop i l] at hl hx
  rw [List.nodup_append] at hl
  obtain ⟨h1, h2, hdisj⟩ := hl
  rw [List.nodup_append]
  refine ⟨h1, ?_, ?_⟩
  · rw [List.nodup_cons]
    exact ⟨fun hmem => hx (List.mem_append.mpr (Or.inr hmem)), h2⟩
  · intro a ha hb
    rcases List.mem_cons.mp hb with h | h
    · subst h; exact hx (List.mem_append.mpr (Or.inl ha))
    · exact hdisj ha h

theorem pairwise_vecInsert {R : α → α → Prop} {l : List α} {x : α} {i : Nat}
    (hp : l.Pairwise R)
    (h1 : ∀ a ∈ l.take i, R a x) (h2 : ∀ b ∈ l.drop i, R x b) :
    (vecInsert l i x).Pairwise R := by
  unfold vecInsert
  have hsplit : l.take i ++ l.drop i = l := List.take_append_drop i l
  have hp' : (l.take i ++ l.drop i).Pairwise R := by rw [hsplit]; exact hp
  rw [List.pairwise_append] at hp'
  obtain ⟨hpt, hpd, hcross⟩ := hp'
  rw [List.pairwise_append]
  refine ⟨hpt, ?_, ?_⟩
  · rw [List.pairwise_cons]
    exact ⟨h2, hpd⟩
  · intro a ha b hb
    rcases List.mem_cons.mp hb with h | h
    · subst h; exact h1 a ha
    · exact hcross a ha b h

theorem length_vecInsert (l : List α) (x : α) (i : Nat) (hi : i ≤ l.length) :
    (vecInsert l i x).length = l.length + 1 := by
  unfold vecInsert
  simp [List.length_take, List.length_drop, Nat.min_eq_left hi]
  omega

/- ---------------------------------------------------------------------------
   Lemmas about arrival indices.
--------------------------------------------------------------------------- -/

theorem firstNewIdx_le_length (evs : List Ev) (id : EventId) :
    firstNewIdx evs id ≤ evs.length :=
  List.findIdx_le_length _

theorem firstNewIdx_append_of_lt (evs : List Ev) (e : Ev) (id : EventId)
    (h : firstNewIdx evs id < evs.length) :
    firstNewIdx (evs ++ [e]) id = firstNewIdx evs id := by
  unfold firstNewIdx at *
  rw [List.findIdx_append, if_pos h]

theorem firstNewIdx_append_of_eq (evs : List Ev) (e : Ev) (id : EventId)
    (h : firstNewIdx evs id = evs.length) :
    firstNewIdx (evs ++ [e]) id =
      if e.relates_to.isNone && (e.event_id == id) then evs.length
      else evs.length + 1 := by
  unfold firstNewIdx at *
  rw [List.findIdx_append, if_neg (by rw [h]; exact Nat.lt_irrefl _)]
  have h1 : List.findIdx (fun e' => e'.relates_to.isNone && e'.event_id == id) [e]
      = if e.relates_to.isNone && (e.event_id == id) then 0 else 1 := by
    by_cases hp : (e.relates_to.isNone && (e.event_id == id)) = true
    · simp [List.findIdx_cons, hp]
    · simp only [Bool.not_eq_true] at hp
      simp [List.findIdx_cons, hp]
  rw [h1]
  by_cases hp : (e.relates_to.isNone && (e.event_id == id)) = true
  · simp [hp]
  · simp only [Bool.not_eq_true] at hp
    simp [hp]
    omega

theorem firstNewIdx_eq_length_of_not_lt (evs : List Ev) (id : EventId)
    (h : ¬ firstNewIdx evs id < evs.length) :
    firstNewIdx evs id = evs.length :=
  Nat.le_antisymm (firstNewIdx_le_length evs id) (Nat.not_lt.mp h)

/- ---------------------------------------------------------------------------
   Order and stability of the insertion scan.
--------------------------------------------------------------------------- -/

theorem condAt_true_elim (msgs : List (EventId × Message)) (ids : List EventId)
    (ts j : Nat) (hj : j < ids.length)
    (h : condAt msgs ids ts j = true) :
    tsOf msgs (ids.get ⟨j, hj⟩) ≤ ts := by
  unfold condAt at h
  rw [List.get?_eq_get hj] at h
  have h' : (match mapGet msgs (ids.get ⟨j, hj⟩) with
      | none => false
      | some m => decide (m.timestamp ≤ ts)) = true := h
  cases hget : mapGet msgs (ids.get ⟨j, hj⟩) with
  | none => rw [hget] at h'; simp at h'
  | some m =>
    rw [hget] at h'
    simp only [decide_eq_true_eq] at h'
    unfold tsOf
    rw [hget]
    exact h'

theorem condAt_false_elim (msgs : List (EventId × Message)) (ids : List EventId)
    (ts j : Nat) (hj : j < ids.length)
    (hmem : (mapGet msgs (ids.get ⟨j, hj⟩)).isSome = true)
    (h : condAt msgs ids ts j = false) :
    ts < tsOf msgs (ids.get ⟨j, hj⟩) := by
  unfold condAt at h
  rw [List.get?_eq_get hj] at h
  have h' : (match mapGet msgs (ids.get ⟨j, hj⟩) with
      | none => false
      | some m => decide (m.timestamp ≤ ts)) = false := h
  cases hget : mapGet msgs (ids.get ⟨j, hj⟩) with
  | none => rw [hget] at hmem; simp at hmem
  | some m =>
    rw [hget] at h'
    simp only [decide_eq_false_iff_not] at h'
    have hlt : ts < m.timestamp := Nat.lt_of_not_le h'
    unfold tsOf
    rw [hget]
    exact hlt

theorem tsOf_le_of_lt_insertPos (msgs : List (EventId × Message)) (ids : List EventId)
    (ts : Nat)
    (hsorted : ids.Pairwise (fun a b => tsOf msgs a ≤ tsOf msgs b))
    {j : Nat} (hj : j < ids.length) (hlt : j < insertPos msgs ids ts) :
    tsOf msgs (ids.get ⟨j, hj⟩) ≤ ts := by
  have hle : insertPos msgs ids ts ≤ ids.length := insertPos_le_length msgs ids ts
  have hr : insertPosGo msgs ids ts ids.length = insertPos msgs ids ts := rfl
  rcases insertPosGo_zero_or_cond msgs ids ts ids.length with h0 | hcond
  · rw [hr] at h0; omega
  · rw [hr] at hcond
    have hr1 : insertPos msgs ids ts - 1 < ids.length := by omega
    have hts := condAt_true_elim msgs ids ts _ hr1 hcond
    rcases Nat.lt_or_ge j (insertPos msgs ids ts - 1) with hj' | hj'
    · have hpg := List.pairwise_iff_get.mp hsorted ⟨j, hj⟩
        ⟨insertPos msgs ids ts - 1, hr1⟩ (Fin.mk_lt_mk.mpr hj')
      exact le_trans hpg hts
    · have heq : j = insertPos msgs ids ts - 1 := by omega
      subst heq
      exact hts

theorem lt_tsOf_of_insertPos_le (msgs : List (EventId × Message)) (ids : List EventId)
    (ts : Nat)
    (hmem : ∀ id ∈ ids, (mapGet msgs id).isSome = true)
    {j : Nat} (hj : j < ids.length) (hge : insertPos msgs ids ts ≤ j) :
    ts < tsOf msgs (ids.get ⟨j, hj⟩) := by
  have hfalse : condAt msgs ids ts j = false :=
    insertPosGo_not_cond msgs ids ts ids.length j hge hj
  exact condAt_false_elim msgs ids ts j hj (hmem _ (List.get_mem ids j hj)) hfalse

theorem tsOf_le_of_mem_take (msgs : List (EventId × Message)) (ids : List EventId)
    (ts : Nat)
    (hsorted : ids.Pairwise (fun a b => tsOf msgs a ≤ tsOf msgs b))
    {a : EventId} (ha : a ∈ ids.take (insertPos msgs ids ts)) :
    tsOf msgs a ≤ ts := by
  rcases List.mem_iff_get.mp ha with ⟨⟨j, hjl⟩, hga⟩
  have hjl' := hjl
  rw [List.length_take, lt_min_iff] at hjl'
  have hjt : j < insertPos msgs ids ts := hjl'.1
  have hj2 : j < ids.length := hjl'.2
  have hval : ids.get ⟨j, hj2⟩ = a := by
    rw [← hga, List.get_eq_getElem, List.get_eq_getElem, List.getElem_take]
  rw [← hval]
  exact tsOf_le_of_lt_insertPos msgs ids ts hsorted hj2 hjt

theorem lt_tsOf_of_mem_drop (msgs : List (EventId × Message)) (ids : List EventId)
    (ts : Nat)
    (hmem : ∀ id ∈ ids, (mapGet msgs id).isSome = true)
    {b : EventId} (hb : b ∈ ids.drop (insertPos msgs ids ts)) :
    ts < tsOf msgs b := by
  rcases List.mem_iff_get.mp hb with ⟨⟨j, hjl⟩, hgb⟩
  have hjlen : insertPos msgs ids ts + j < ids.length := by
    rw [List.length_drop] at hjl
    omega
  rw [List.get_eq_getElem, List.getElem_drop] at hgb
  have hval : ids.get ⟨insertPos msgs ids ts + j, hjlen⟩ = b := by
    rw [List.get_eq_getElem]; exact hgb
  rw [← hval]
  exact lt_tsOf_of_insertPos_le msgs ids ts hmem hjlen (Nat.le_add_right _ _)

theorem pairwise_of_pairwise_mem {R S : α → α → Prop} {l : List α}
    (h : l.Pairwise R) (himp : ∀ a ∈ l, ∀ b ∈ l, R a b → S a b) :
    l.Pairwise S := by
  induction l with
  | nil => exact List.Pairwise.nil
  | cons x xs ih =>
    rw [List.pairwise_cons] at h ⊢
    refine ⟨?_, ih h.2 ?_⟩
    · intro b hb
      exact himp x (List.mem_cons_self x xs) b (List.mem_cons.mpr (Or.inr hb)) (h.1 b hb)
    · intro a ha b hb hr
      exact himp a (List.mem_cons.mpr (Or.inr ha)) b (List.mem_cons.mpr (Or.inr hb)) hr

/- ---------------------------------------------------------------------------
   Preservation of the reconciler invariant.
--------------------------------------------------------------------------- -/

theorem ReconInv_same_ids (evs : List Ev) (e : Ev) (ch ch₂ : Channel)
    (h : ReconInv evs ch)
    (hids : ch₂.message_ids = ch.message_ids)
    (hsome : ∀ id, (mapGet ch₂.messages id).isSome = (mapGet ch.messages id).isSome)
    (hts : ∀ id, tsOf ch₂.messages id = tsOf ch.messages id)
    (hp : ∀ id, (mapGet ch.messages id).isSome = false →
      (e.relates_to.isNone && (e.event_id == id)) = false) :
    ReconInv (evs ++ [e]) ch₂ := by
  have hmemfni : ∀ a ∈ ch.message_ids, firstNewIdx (evs ++ [e]) a = firstNewIdx evs a := by
    intro a ha
    exact firstNewIdx_append_of_lt evs e a ((h.arrival a).mp (h.member_isSome a ha))
  constructor
  · intro id hid
    rw [hids] at hid
    rw [hsome id]
    exact h.member_isSome id hid
  · intro id hs
    rw [hsome id] at hs
    rw [hids]
    exact h.isSome_member id hs
  · rw [hids]; exact h.nodup
  · rw [hids]
    refine pairwise_of_pairwise_mem h.sorted ?_
    intro a _ b _ hab
    rw [hts a, hts b]
    exact hab
  · rw [hids]
    refine pairwise_of_pairwise_mem h.stable ?_
    intro a ha b hb himpl heq
    rw [hts a, hts b] at heq
    rw [hmemfni a ha, hmemfni b hb]
    exact himpl heq
  · intro id
    rw [hsome id]
    by_cases hs : (mapGet ch.messages id).isSome = true
    · rw [hs]
      have h1 := (h.arrival id).mp hs
      rw [firstNewIdx_append_of_lt evs e id h1]
      simp [List.length_append]
      omega
    · have hs' : (mapGet ch.messages id).isSome = false := by
        cases hv : (mapGet ch.messages id).isSome
        · rfl
        · exact absurd hv hs
      rw [hs']
      have hnotlt : ¬ firstNewIdx evs id < evs.length := by
        intro hcon
        have := (h.arrival id).mpr hcon
        rw [hs'] at this
        cases this
      have hfn := firstNewIdx_eq_length_of_not_lt evs id hnotlt
      rw [firstNewIdx_append_of_eq evs e id hfn, hp id hs']
      simp [List.length_append]

theorem recon_step_new (evs : List Ev) (e : Ev) (ch : Channel)
    (h : ReconInv evs ch)
    (hrel : e.relates_to = none)
    (hnc : mapContains ch.messages e.event_id = false)
    (m : Message) (hmid : m.id = e.event_id)
    (edits : List (EventId × Edit)) :
    ReconInv (evs ++ [e])
      { ch with
        message_ids := vecInsert ch.message_ids
          (insertPos ch.messages ch.message_ids m.timestamp) m.id
        messages := mapInsert ch.messages m.id m
        message_edits := edits } := by
  have hgetx : mapGet ch.messages m.id = none := by
    rw [hmid]; exact mapContains_false_get _ _ hnc
  have hxnotin : m.id ∉ ch.message_ids := by
    intro hmem
    have := h.member_isSome _ hmem
    rw [hgetx] at this
    cases this
  have hfnx : firstNewIdx evs m.id = evs.length := by
    apply firstNewIdx_eq_length_of_not_lt
    intro hcon
    have := (h.arrival m.id).mpr hcon
    rw [hgetx] at this
    cases this
  have hpx : (e.relates_to.isNone && (e.event_id == m.id)) = true := by
    rw [hrel, hmid]
    simp
  have hfnx' : firstNewIdx (evs ++ [e]) m.id = evs.length := by
    rw [firstNewIdx_append_of_eq evs e m.id hfnx, hpx]
    simp
  have hmemfni : ∀ a ∈ ch.message_ids, firstNewIdx (evs ++ [e]) a = firstNewIdx evs a := by
    intro a ha
    exact firstNewIdx_append_of_lt evs e a ((h.arrival a).mp (h.member_isSome a ha))
  have hmemlt : ∀ a ∈ ch.message_ids, firstNewIdx evs a < evs.length := by
    intro a ha
    exact (h.arrival a).mp (h.member_isSome a ha)
  have htse : ∀ a ∈ ch.message_ids,
      tsOf (mapInsert ch.messages m.id m) a = tsOf ch.messages a := by
    intro a ha
    have hne : ¬ (m.id = a) := fun heq => hxnotin (heq.symm ▸ ha)
    rw [tsOf_insert, if_neg hne]
  have htsx : tsOf (mapInsert ch.messages m.id m) m.id = m.timestamp := by
    rw [tsOf_insert, if_pos rfl]
  constructor
  · intro id hid
    rcases mem_vecInsert.mp hid with hx | hin
    · subst hx
      rw [mapGet_insert_self]
      rfl
    · have hne : m.id ≠ id := fun heq => hxnotin (heq.symm ▸ hin)
      rw [mapGet_insert_ne _ _ _ _ hne]
      exact h.member_isSome id hin
  · intro id hs
    by_cases hx : m.id = id
    · exact mem_vecInsert.mpr (Or.inl hx.symm)
    · rw [mapGet_insert_ne _ _ _ _ hx] at hs
      exact mem_vecInsert.mpr (Or.inr (h.isSome_member id hs))
  · exact nodup_vecInsert h.nodup hxnotin
  · apply pairwise_vecInsert
    · refine pairwise_of_pairwise_mem h.sorted ?_
      intro a ha b hb hab
      rw [htse a ha, htse b hb]
      exact hab
    · intro a ha
      rw [htse a (List.mem_of_mem_take ha), htsx]
      exact tsOf_le_of_mem_take ch.messages ch.message_ids m.timestamp h.sorted ha
    · intro b hb
      rw [htsx, htse b (List.mem_of_mem_drop hb)]
      exact le_of_lt
        (lt_tsOf_of_mem_drop ch.messages ch.message_ids m.timestamp h.member_isSome hb)
  · apply pairwise_vecInsert
    · refine pairwise_of_pairwise_mem h.stable ?_
      intro a ha b hb himpl heq
      rw [htse a ha, htse b hb] at heq
      rw [hmemfni a ha, hmemfni b hb]
      exact himpl heq
    · intro a ha _
      have ha' := List.mem_of_mem_take ha
      rw [hmemfni a ha', hfnx']
      exact hmemlt a ha'
    · intro b hb heq
      have hb' := List.mem_of_mem_drop hb
      rw [htsx, htse b hb'] at heq
      have hlt := lt_tsOf_of_mem_drop ch.messages ch.message_ids m.timestamp
        h.member_isSome hb
      omega
  · intro id
    by_cases hx : m.id = id
    · rw [← hx]
      have h1 : (mapGet (mapInsert ch.messages m.id m) m.id).isSome = true := by
        rw [mapGet_insert_self]; rfl
      rw [h1, hfnx']
      simp [List.length_append]
    · rw [mapGet_insert_ne _ _ _ _ hx]
      by_cases hs : (mapGet ch.messages id).isSome = true
      · rw [hs]
        have h1 := (h.arrival id).mp hs
        rw [firstNewIdx_append_of_lt evs e id h1]
        simp [List.length_append]
        omega
      · have hs' : (mapGet ch.messages id).isSome = false := by
          cases hv : (mapGet ch.messages id).isSome
          · rfl
          · exact absurd hv hs
        rw [hs']
        have hnotlt : ¬ firstNewIdx evs id < evs.length := by
          intro hcon
          have := (h.arrival id).mpr hcon
          rw [hs'] at this
          cases this
        have hfn := firstNewIdx_eq_length_of_not_lt evs id hnotlt
        have hpfalse : (e.relates_to.isNone && (e.event_id == id)) = false := by
          rw [hrel]
          have : (e.event_id == id) = false := by
            rw [← hmid]
            exact beq_false_of_ne hx
          simp [this]
        rw [firstNewIdx_append_of_eq evs e id hfn, hpfalse]
        simp [List.length_append]

theorem handle_new_message_dup (e : Ev) (st : Channel × Option Nat)
    (hc : mapContains st.1.messages e.event_id = true) :
    handle_new_message e st = st := by
  unfold handle_new_message
  simp [hc]

theorem handle_new_message_edit (e : Ev) (st : Channel × Option Nat) (edit : Replacement)
    (hc : mapContains st.1.messages e.event_id = false)
    (hrel : e.relates_to = some edit) :
    handle_new_message e st = (applyEditEvent e edit st.1, st.2) := by
  unfold handle_new_message
  rw [hrel]
  simp [hc]

theorem handle_new_message_new (e : Ev) (st : Channel × Option Nat)
    (hc : mapContains st.1.messages e.event_id = false)
    (hrel : e.relates_to = none) :
    handle_new_message e st = insertNewMessage e st.1 st.2 := by
  unfold handle_new_message
  rw [hrel]
  simp [hc]

theorem recon_step (evs : List Ev) (e : Ev) (st : Channel × Option Nat)
    (h : ReconInv evs st.1) :
    ReconInv (evs ++ [e]) (handle_new_message e st).1 := by
  obtain ⟨ch, sel⟩ := st
  by_cases hc : mapContains ch.messages e.event_id = true
  · rw [handle_new_message_dup e (ch, sel) hc]
    apply ReconInv_same_ids evs e ch ch h rfl (fun _ => rfl) (fun _ => rfl)
    intro id hid
    by_cases hbe : e.event_id = id
    · rw [hbe] at hc
      unfold mapContains at hc
      rw [hid] at hc
      cases hc
    · simp [beq_false_of_ne hbe]
  · have hnc : mapContains ch.messages e.event_id = false := by
      cases hv : mapContains ch.messages e.event_id
      · rfl
      · exact absurd hv hc
    cases hrel : e.relates_to with
    | some edit =>
      rw [handle_new_message_edit e (ch, sel) edit hnc hrel]
      have hpfalse : ∀ id, (mapGet ch.messages id).isSome = false →
          (e.relates_to.isNone && (e.event_id == id)) = false := by
        intro id _
        rw [hrel]
        rfl
      rcases hm : mapGet ch.messages edit.event_id with _ | m
      · have hids : (applyEditEvent e edit ch).message_ids = ch.message_ids := by
          simp only [applyEditEvent, hm]
          split <;> first | rfl | (split <;> rfl)
        have hmsgs : (applyEditEvent e edit ch).messages = ch.messages := by
          simp only [applyEditEvent, hm]
          split <;> first | rfl | (split <;> rfl)
        exact ReconInv_same_ids evs e ch _ h hids
          (fun id => by rw [hmsgs]) (fun id => by rw [hmsgs]) hpfalse
      · have hred : applyEditEvent e edit ch =
            { ch with messages :=
                mapInsert ch.messages edit.event_id (applyEditToMessage edit m) } := by
          simp only [applyEditEvent, hm]
        rw [hred]
        refine ReconInv_same_ids evs e ch
          ({ ch with messages := mapInsert ch.messages edit.event_id (applyEditToMessage edit m) })
          h rfl ?_ ?_ hpfalse
        · intro id
          by_cases he : edit.event_id = id
          · rw [← he]
            rw [mapGet_insert_self, hm]
            rfl
          · rw [mapGet_insert_ne _ _ _ _ he]
        · intro id
          by_cases he : edit.event_id = id
          · rw [← he]
            rw [tsOf_insert, if_pos rfl]
            unfold tsOf
            rw [hm]
            rfl
          · rw [tsOf_insert, if_neg he]
    | none =>
      rw [handle_new_message_new e (ch, sel) hnc hrel]
      cases hpe : mapGet ch.message_edits e.event_id with
      | none =>
        have hred : (insertNewMessage e ch sel).1 =
            { ch with
              message_ids := vecInsert ch.message_ids
                (insertPos ch.messages ch.message_ids (e.origin_server_ts / 1000))
                e.event_id
              messages := mapInsert ch.messages e.event_id
                { id := e.event_id, user := e.sender, edited := false,
                  content := e.body, timestamp := e.origin_server_ts / 1000 }
              message_edits := ch.message_edits } := by
          simp only [insertNewMessage, hpe]
        rw [hred]
        exact recon_step_new evs e ch h hrel hnc
          { id := e.event_id, user := e.sender, edited := false,
            content := e.body, timestamp := e.origin_server_ts / 1000 }
          rfl ch.message_edits
      | some pe =>
        have hred : (insertNewMessage e ch sel).1 =
            { ch with
              message_ids := vecInsert ch.message_ids
                (insertPos ch.messages ch.message_ids (e.origin_server_ts / 1000))
                e.event_id
              messages := mapInsert ch.messages e.event_id
                { id := e.event_id, user := e.sender, edited := true,
                  content := pe.content, timestamp := e.origin_server_ts / 1000 }
              message_edits := mapRemove ch.message_edits e.event_id } := by
          simp only [insertNewMessage, hpe]
        rw [hred]
        exact recon_step_new evs e ch h hrel hnc
          { id := e.event_id, user := e.sender, edited := true,
            content := pe.content, timestamp := e.origin_server_ts / 1000 }
          rfl (mapRemove ch.message_edits e.event_id)

theorem recon_empty (name : String) : ReconInv [] (emptyChannel name) := by
  refine ⟨?_, ?_, ?_, ?_, ?_, ?_⟩ <;>
    simp [emptyChannel, mapGet, firstNewIdx, tsOf]

theorem recon_applyEvents (name : String) (sel : Option Nat) (evs : List Ev) :
    ReconInv evs (applyEvents evs (emptyChannel name, sel)).1 := by
  induction evs using List.reverseRecOn with
  | nil => exact recon_empty name
  | append_singleton evs e ih =>
    have hstep : applyEvents (evs ++ [e]) (emptyChannel name, sel)
        = handle_new_message e (applyEvents evs (emptyChannel name, sel)) := by
      unfold applyEvents
      rw [List.foldl_append]
      rfl
    rw [hstep]
    exact recon_step evs e _ ih

theorem selAdjust_eq (i : Nat) (sel : Option Nat) :
    selAdjust i sel = if i ≠ 0 ∧ sel = some i then some (i - 1) else sel := by
  unfold selAdjust
  by_cases hi : i = 0
  · simp [hi]
  · cases sel with
    | none => simp [hi]
    | some s =>
      by_cases hs : s = i
      · simp [hi, hs]
      · simp [hi, hs]

/- ---------------------------------------------------------------------------
   Claim theorems.
--------------------------------------------------------------------------- -/

/-- C1: for every sequence of events applied to a fresh channel, the resulting
    message_ids sequence is sorted non-decreasing by stored message timestamp,
    and among equal timestamps the id whose message event arrived (was inserted)
    earlier precedes the one that arrived later. -/
theorem C1_order_sorted_stable (evs : List Ev) (name : String) (sel : Option Nat) :
    (applyEvents evs (emptyChannel name, sel)).1.message_ids.Pairwise (fun a b =>
      tsOf (applyEvents evs (emptyChannel name, sel)).1.messages a ≤
        tsOf (applyEvents evs (emptyChannel name, sel)).1.messages b ∧
      (tsOf (applyEvents evs (emptyChannel name, sel)).1.messages a =
          tsOf (applyEvents evs (emptyChannel name, sel)).1.messages b →
        firstNewIdx evs a < firstNewIdx evs b)) :=
  ((recon_applyEvents name sel evs).sorted).and ((recon_applyEvents name sel evs).stable)

/-- Witness for C1 at a concrete out-of-order event sequence. -/
theorem C1_order_sorted_stable_witness :
    (applyEvents [exEv 1 3000 "a", exEv 2 1000 "b", exEv 3 2000 "c"]
      (emptyChannel "room", none)).1.message_ids.Pairwise (fun a b =>
      tsOf (applyEvents [exEv 1 3000 "a", exEv 2 1000 "b", exEv 3 2000 "c"]
        (emptyChannel "room", none)).1.messages a ≤
        tsOf (applyEvents [exEv 1 3000 "a", exEv 2 1000 "b", exEv 3 2000 "c"]
          (emptyChannel "room", none)).1.messages b ∧
      (tsOf (applyEvents [exEv 1 3000 "a", exEv 2 1000 "b", exEv 3 2000 "c"]
          (emptyChannel "room", none)).1.messages a =
          tsOf (applyEvents [exEv 1 3000 "a", exEv 2 1000 "b", exEv 3 2000 "c"]
            (emptyChannel "room", none)).1.messages b →
        firstNewIdx [exEv 1 3000 "a", exEv 2 1000 "b", exEv 3 2000 "c"] a <
          firstNewIdx [exEv 1 3000 "a", exEv 2 1000 "b", exEv 3 2000 "c"] b)) :=
  C1_order_sorted_stable [exEv 1 3000 "a", exEv 2 1000 "b", exEv 3 2000 "c"] "room" none

/-- C3: the program never applies a redaction locally.  The registered event
    handler matches SyncMessageLikeEvent::Redacted with () (main.rs line 137) and
    no handler for room redaction events exists, so a redaction removes nothing
    from message_ids or messages; in particular the fixture channel still holds
    message 2 after a redaction targeting it. -/
theorem C3_redaction_ignored :
    (∀ (target : EventId) (st : Channel × Option Nat),
      handle_sync_event (SyncEvent.redacted target) st = st) ∧
    (handle_sync_event (SyncEvent.redacted 2) (exChannel, none) = (exChannel, none) ∧
      2 ∈ exChannel.message_ids ∧ (mapGet exChannel.messages 2).isSome = true) := by
  refine ⟨fun _ _ => rfl, rfl, ?_, ?_⟩ <;> decide

/-- C4: delivering the same non-edit message event a second time leaves the
    channel state and the selection exactly as after the first delivery. -/
theorem C4_duplicate_idempotent (e : Ev) (st : Channel × Option Nat)
    (hrel : e.relates_to = none) :
    handle_new_message e (handle_new_message e st) = handle_new_message e st := by
  obtain ⟨ch, sel⟩ := st
  by_cases hc : mapContains ch.messages e.event_id = true
  · rw [handle_new_message_dup e (ch, sel) hc, handle_new_message_dup e (ch, sel) hc]
  · have hnc : mapContains ch.messages e.event_id = false := by
      cases hv : mapContains ch.messages e.event_id
      · rfl
      · exact absurd hv hc
    rw [handle_new_message_new e (ch, sel) hnc hrel]
    have hcontains : mapContains (insertNewMessage e ch sel).1.messages e.event_id = true := by
      cases hpe : mapGet ch.message_edits e.event_id with
      | none =>
        simp only [insertNewMessage, hpe]
        unfold mapContains
        rw [mapGet_insert_self]
        rfl
      | some pe =>
        simp only [insertNewMessage, hpe]
        unfold mapContains
        rw [mapGet_insert_self]
        rfl
    exact handle_new_message_dup e _ hcontains

/-- Witness for C4: duplicate delivery of message 2 into the fixture channel. -/
theorem C4_duplicate_idempotent_witness :
    (exEv 2 2000 "b").relates_to = none ∧
    handle_new_message (exEv 2 2000 "b")
        (handle_new_message (exEv 2 2000 "b") (exChannel, some 1)) =
      handle_new_message (exEv 2 2000 "b") (exChannel, some 1) :=
  ⟨rfl, C4_duplicate_idempotent (exEv 2 2000 "b") (exChannel, some 1) rfl⟩

/-- C7 as claimed is false: inserting a message with timestamp 1 into the fixture
    channel (timestamps 1, 2, 3) inserts at index 1; the highlight index 2 is at
    or after that insertion point, yet it stays 2 instead of becoming 1. -/
theorem C7_counterexample :
    insertPos exChannel.messages exChannel.message_ids 1 = 1 ∧
    (handle_new_message (exEv 4 1000 "d") (exChannel, some 2)).2 = some 2 ∧
    (handle_new_message (exEv 4 1000 "d") (exChannel, some 2)).2 ≠ some 1 := by
  refine ⟨?_, ?_, ?_⟩ <;> decide

/-- C7 amended: on inserting a fresh non-edit message, the highlight index is
    decremented by one exactly when it equals the insertion index and that index
    is nonzero; every other highlight value (including indices strictly after the
    insertion point) is left unchanged. -/
theorem C7_highlight_shift (e : Ev) (ch : Channel) (sel : Option Nat)
    (hrel : e.relates_to = none)
    (hnc : mapContains ch.messages e.event_id = false) :
    (handle_new_message e (ch, sel)).2 =
      (if insertPos ch.messages ch.message_ids (e.origin_server_ts / 1000) ≠ 0 ∧
          sel = some (insertPos ch.messages ch.message_ids (e.origin_server_ts / 1000))
        then some (insertPos ch.messages ch.message_ids (e.origin_server_ts / 1000) - 1)
        else sel) := by
  rw [handle_new_message_new e (ch, sel) hnc hrel, ← selAdjust_eq]
  cases hpe : mapGet ch.message_edits e.event_id with
  | none => simp only [insertNewMessage, hpe]
  | some pe => simp only [insertNewMessage, hpe]

/-- Witness for C7 amended: highlight 1 equals the insertion index 1 and becomes 0. -/
theorem C7_highlight_shift_witness :
    (exEv 4 1000 "d").relates_to = none ∧
    mapContains exChannel.messages (exEv 4 1000 "d").event_id = false ∧
    (handle_new_message (exEv 4 1000 "d") (exChannel, some 1)).2 = some 0 := by
  refine ⟨rfl, by decide, ?_⟩
  rw [C7_highlight_shift (exEv 4 1000 "d") exChannel (some 1) rfl (by decide)]
  decide

/-- C2 as claimed is false in its last-edit-wins part: with the target already
    present, edit "A" (timestamp 10000) then edit "B" (timestamp 5000) leave the
    body at "B" — the later-arriving edit wins although its timestamp is smaller. -/
theorem C2_counterexample :
    (mapGet (applyEvents [exEv 1 1000 "orig", exEditEv 2 1 10000 "A", exEditEv 3 1 5000 "B"]
      (emptyChannel "room", none)).1.messages 1).map Message.content = some "B" ∧
    (mapGet (applyEvents [exEv 1 1000 "orig", exEditEv 2 1 10000 "A", exEditEv 3 1 5000 "B"]
      (emptyChannel "room", none)).1.messages 1).map Message.content ≠ some "A" := by
  refine ⟨?_, ?_⟩ <;> decide

/-- C2 amended: (1) an edit whose target exists is reflected immediately — body
    overwritten, edited set, order sequence and selection untouched; (2) a cached
    pending edit is folded into its target the moment the target message is
    created, and the cache entry is consumed; (3) of two edits with different
    timestamps that both precede their target, the larger timestamp wins
    regardless of arrival order; (4) once the target exists, the most recently
    arrived edit wins unconditionally (timestamps are not consulted). -/
theorem C2_edit_semantics :
    (∀ (e : Ev) (ch : Channel) (sel : Option Nat) (edit : Replacement) (m : Message),
      e.relates_to = some edit →
      mapContains ch.messages e.event_id = false →
      mapGet ch.messages edit.event_id = some m →
      mapGet (handle_new_message e (ch, sel)).1.messages edit.event_id =
        some { m with edited := true, content := edit.new_content } ∧
      (handle_new_message e (ch, sel)).1.message_ids = ch.message_ids ∧
      (handle_new_message e (ch, sel)).2 = sel) ∧
    (∀ (e : Ev) (ch : Channel) (sel : Option Nat) (pe : Edit),
      e.relates_to = none →
      mapContains ch.messages e.event_id = false →
      mapGet ch.message_edits e.event_id = some pe →
      mapGet (handle_new_message e (ch, sel)).1.messages e.event_id =
        some { id := e.event_id, user := e.sender, edited := true,
               content := pe.content, timestamp := e.origin_server_ts / 1000 } ∧
      mapGet (handle_new_message e (ch, sel)).1.message_edits e.event_id = none) ∧
    (∀ (e₁ e₂ : Ev) (ch : Channel) (sel : Option Nat) (t : EventId) (c₁ c₂ : String),
      e₁.relates_to = some ⟨t, c₁⟩ →
      e₂.relates_to = some ⟨t, c₂⟩ →
      mapContains ch.messages e₁.event_id = false →
      mapContains ch.messages e₂.event_id = false →
      mapGet ch.messages t = none →
      mapGet ch.message_edits t = none →
      e₁.origin_server_ts ≠ e₂.origin_server_ts →
      mapGet (handle_new_message e₂ (handle_new_message e₁ (ch, sel))).1.message_edits t =
        some (if e₁.origin_server_ts < e₂.origin_server_ts
          then { content := c₂, timestamp := e₂.origin_server_ts }
          else { content := c₁, timestamp := e₁.origin_server_ts })) ∧
    (∀ (e₁ e₂ : Ev) (ch : Channel) (sel : Option Nat) (t : EventId) (c₁ c₂ : String)
        (m : Message),
      e₁.relates_to = some ⟨t, c₁⟩ →
      e₂.relates_to = some ⟨t, c₂⟩ →
      mapContains ch.messages e₁.event_id = false →
      mapContains ch.messages e₂.event_id = false →
      mapGet ch.messages t = some m →
      (mapGet (handle_new_message e₂ (handle_new_message e₁ (ch, sel))).1.messages t).map
        Message.content = some c₂) := by
  refine ⟨?_, ?_, ?_, ?_⟩
  · intro e ch sel edit m hrel hnc hm
    have hred : handle_new_message e (ch, sel) =
        ({ ch with messages :=
            mapInsert ch.messages edit.event_id (applyEditToMessage edit m) }, sel) := by
      rw [handle_new_message_edit e (ch, sel) edit hnc hrel]
      simp only [applyEditEvent, hm]
    rw [hred]
    refine ⟨?_, rfl, rfl⟩
    rw [mapGet_insert_self]
    rfl
  · intro e ch sel pe hrel hnc hpe
    rw [handle_new_message_new e (ch, sel) hnc hrel]
    simp only [insertNewMessage, hpe]
    constructor
    · rw [mapGet_insert_self]
    · rw [mapGet_remove]
      simp
  · intro e₁ e₂ ch sel t c₁ c₂ hrel₁ hrel₂ hnc₁ hnc₂ hmt hpt hne
    have h1 : handle_new_message e₁ (ch, sel) =
        ({ ch with message_edits :=
            mapInsert ch.message_edits t ⟨c₁, e₁.origin_server_ts⟩ }, sel) := by
      rw [handle_new_message_edit e₁ (ch, sel) ⟨t, c₁⟩ hnc₁ hrel₁]
      simp only [applyEditEvent, hmt, hpt]
    rw [h1]
    rw [handle_new_message_edit e₂ _ ⟨t, c₂⟩ hnc₂ hrel₂]
    simp only [applyEditEvent, hmt, mapGet_insert_self]
    by_cases hlt : e₁.origin_server_ts < e₂.origin_server_ts
    · rw [if_pos hlt, if_pos hlt]
      rw [mapGet_insert_self]
    · rw [if_neg hlt, if_neg hlt]
      rw [mapGet_insert_self]
  · intro e₁ e₂ ch sel t c₁ c₂ m hrel₁ hrel₂ hnc₁ hnc₂ hm
    have h1 : handle_new_message e₁ (ch, sel) =
        ({ ch with messages :=
            mapInsert ch.messages t (applyEditToMessage ⟨t, c₁⟩ m) }, sel) := by
      rw [handle_new_message_edit e₁ (ch, sel) ⟨t, c₁⟩ hnc₁ hrel₁]
      simp only [applyEditEvent, hm]
    have hne₂t : e₂.event_id ≠ t := by
      intro heq
      unfold mapContains at hnc₂
      rw [heq, hm] at hnc₂
      cases hnc₂
    have hnc₂' : mapContains
        (mapInsert ch.messages t (applyEditToMessage ⟨t, c₁⟩ m)) e₂.event_id = false := by
      unfold mapContains
      rw [mapGet_insert_ne _ _ _ _ (fun h => hne₂t h.symm)]
      exact hnc₂
    rw [h1]
    rw [handle_new_message_edit e₂ _ ⟨t, c₂⟩ hnc₂' hrel₂]
    simp only [applyEditEvent, mapGet_insert_self]
    rfl

/-- Witness for C2 amended, instantiating all four parts on fixtures. -/
theorem C2_edit_semantics_witness :
    (mapGet (handle_new_message (exEditEv 4 1 5000 "X") (exChannel, none)).1.messages 1 =
        some ⟨1, "u", true, "X", 1⟩ ∧
      (handle_new_message (exEditEv 4 1 5000 "X") (exChannel, none)).1.message_ids =
        exChannel.message_ids ∧
      (handle_new_message (exEditEv 4 1 5000 "X") (exChannel, none)).2 = none) ∧
    (mapGet (handle_new_message (exEv 1 1000 "orig")
        ((applyEvents [exEditEv 2 1 10000 "A"] (emptyChannel "room", none)).1, none)).1.messages 1 =
        some ⟨1, "u", true, "A", 1⟩ ∧
      mapGet (handle_new_message (exEv 1 1000 "orig")
        ((applyEvents [exEditEv 2 1 10000 "A"]
          (emptyChannel "room", none)).1, none)).1.message_edits 1 = none) ∧
    (mapGet (handle_new_message (exEditEv 3 1 5000 "B")
        (handle_new_message (exEditEv 2 1 10000 "A")
          (emptyChannel "room", none))).1.message_edits 1 =
      some (if (10000 : Nat) < 5000 then { content := "B", timestamp := 5000 }
        else { content := "A", timestamp := 10000 })) ∧
    ((mapGet (handle_new_message (exEditEv 9 1 5000 "B")
        (handle_new_message (exEditEv 8 1 10000 "A")
          (exChannel, none))).1.messages 1).map Message.content = some "B") := by
  refine ⟨?_, ?_, ?_, ?_⟩
  · exact C2_edit_semantics.1 (exEditEv 4 1 5000 "X") exChannel none ⟨1, "X"⟩
      ⟨1, "u", false, "a", 1⟩ rfl (by decide) (by decide)
  · exact C2_edit_semantics.2.1 (exEv 1 1000 "orig")
      (applyEvents [exEditEv 2 1 10000 "A"] (emptyChannel "room", none)).1 none
      ⟨"A", 10000⟩ rfl (by decide) (by decide)
  · exact C2_edit_semantics.2.2.1 (exEditEv 2 1 10000 "A") (exEditEv 3 1 5000 "B")
      (emptyChannel "room") none 1 "A" "B" rfl rfl (by decide) (by decide) (by decide)
      (by decide) (by decide)
  · exact C2_edit_semantics.2.2.2 (exEditEv 8 1 10000 "A") (exEditEv 9 1 5000 "B")
      exChannel none 1 "A" "B" ⟨1, "u", false, "a", 1⟩ rfl rfl (by decide) (by decide)
      (by decide)

/- ---------------------------------------------------------------------------
   UTF-8 byte-length and boundary lemmas for the input editor.
--------------------------------------------------------------------------- -/

theorem utf8Len_append (a b : List Char) :
    utf8Len (a ++ b) = utf8Len a + utf8Len b := by
  induction a with
  | nil => simp [utf8Len]
  | cons c rest ih => simp [utf8Len, ih, Nat.add_assoc]

theorem utf8Len_take_mono (s : List Char) {k k' : Nat} (h : k ≤ k') :
    utf8Len (s.take k) ≤ utf8Len (s.take k') := by
  have h1 : (s.take k').take k = s.take k := by
    rw [List.take_take, Nat.min_eq_left h]
  calc utf8Len (s.take k) = utf8Len ((s.take k').take k) := by rw [h1]
    _ ≤ utf8Len ((s.take k').take k) + utf8Len ((s.take k').drop k) := Nat.le_add_right _ _
    _ = utf8Len (s.take k') := by rw [← utf8Len_append, List.take_append_drop]

theorem utf8Len_take_succ (s : List Char) {k : Nat} (h : k < s.length) :
    utf8Len (s.take (k + 1)) = utf8Len (s.take k) + (s.get ⟨k, h⟩).utf8Size := by
  rw [← List.take_concat_get s k h, List.concat_eq_append, utf8Len_append]
  simp [utf8Len, List.get_eq_getElem]

theorem utf8Len_take_lt (s : List Char) {k : Nat} (h : k < s.length) :
    utf8Len (s.take k) < utf8Len (s.take (k + 1)) := by
  rw [utf8Len_take_succ s h]
  have := (s.get ⟨k, h⟩).utf8Size_pos
  omega

theorem utf8Len_take_full (s : List Char) {k : Nat} (h : s.length ≤ k) :
    utf8Len (s.take k) = utf8Len s := by
  rw [List.take_of_length_le h]

theorem utf8Len_take_le (s : List Char) (k : Nat) :
    utf8Len (s.take k) ≤ utf8Len s := by
  calc utf8Len (s.take k)
      ≤ utf8Len (s.take k) + utf8Len (s.drop k) := Nat.le_add_right _ _
    _ = utf8Len s := by rw [← utf8Len_append, List.take_append_drop]

theorem isBoundary_iff (s : List Char) (p : Nat) :
    isBoundary s p = true ↔ ∃ k, k ≤ s.length ∧ utf8Len (s.take k) = p := by
  induction s generalizing p with
  | nil =>
    cases p with
    | zero =>
      simp only [isBoundary]
      constructor
      · intro _; exact ⟨0, Nat.le_refl 0, rfl⟩
      · intro _; trivial
    | succ q =>
      simp only [isBoundary]
      constructor
      · intro h; cases h
      · rintro ⟨k, hk, hl⟩
        have hk0 : k = 0 := Nat.le_zero.mp hk
        subst hk0
        simp [utf8Len] at hl
  | cons c rest ih =>
    cases p with
    | zero =>
      simp only [isBoundary]
      constructor
      · intro _; exact ⟨0, Nat.zero_le _, rfl⟩
      · intro _; trivial
    | succ q =>
      by_cases hlt : q + 1 < c.utf8Size
      · simp only [isBoundary, if_pos hlt]
        constructor
        · intro h; cases h
        · rintro ⟨k, hk, hl⟩
          cases k with
          | zero => simp [utf8Len] at hl
          | succ k' =>
            rw [List.take_succ_cons] at hl
            have hl2 : c.utf8Size + utf8Len (rest.take k') = q + 1 := hl
            omega
      · simp only [isBoundary, if_neg hlt]
        rw [ih (q + 1 - c.utf8Size)]
        have hsz : c.utf8Size ≤ q + 1 := Nat.not_lt.mp hlt
        constructor
        · rintro ⟨k', hk', hl'⟩
          refine ⟨k' + 1, ?_, ?_⟩
          · simp only [List.length_cons]
            omega
          · rw [List.take_succ_cons]
            show c.utf8Size + utf8Len (rest.take k') = q + 1
            omega
        · rintro ⟨k, hk, hl⟩
          cases k with
          | zero => simp [utf8Len] at hl
          | succ k' =>
            rw [List.take_succ_cons] at hl
            have hl2 : c.utf8Size + utf8Len (rest.take k') = q + 1 := hl
            refine ⟨k', ?_, by omega⟩
            simp only [List.length_cons] at hk
            omega

theorem isBoundary_utf8Len_take (s : List Char) {k : Nat} (hk : k ≤ s.length) :
    isBoundary s (utf8Len (s.take k)) = true :=
  (isBoundary_iff s _).mpr ⟨k, hk, rfl⟩

theorem charIdxAt_cons_ge (c : Char) (rest : List Char) (p : Nat)
    (h1 : 1 ≤ p) (h2 : c.utf8Size ≤ p) :
    charIdxAt (c :: rest) p = 1 + charIdxAt rest (p - c.utf8Size) := by
  obtain ⟨q, rfl⟩ : ∃ q, p = q + 1 := ⟨p - 1, by omega⟩
  simp only [charIdxAt]
  rw [if_neg (by omega)]

theorem charIdxAt_utf8Len_take (s : List Char) {k : Nat} (hk : k ≤ s.length) :
    charIdxAt s (utf8Len (s.take k)) = k := by
  induction s generalizing k with
  | nil =>
    have hk0 : k = 0 := by simpa using hk
    subst hk0
    rfl
  | cons c rest ih =>
    cases k with
    | zero => rfl
    | succ k' =>
      have hk' : k' ≤ rest.length := by
        simp only [List.length_cons] at hk
        omega
      have hp : utf8Len ((c :: rest).take (k' + 1)) =
          c.utf8Size + utf8Len (rest.take k') := by
        rw [List.take_succ_cons]
        rfl
      have hpos := c.utf8Size_pos
      rw [hp, charIdxAt_cons_ge c rest _ (by omega) (by omega)]
      have hsub : c.utf8Size + utf8Len (rest.take k') - c.utf8Size =
          utf8Len (rest.take k') := by omega
      rw [hsub, ih hk']
      omega

/- ---------------------------------------------------------------------------
   Correctness of the boundary scans.
--------------------------------------------------------------------------- -/

theorem backScanGo_spec (s : List Char) (pos : Nat) :
    ∀ fuel i, (∃ j, i ≤ j ∧ j ≤ i + fuel ∧ isBoundary s (pos - j) = true) →
      isBoundary s (pos - backScanGo s pos fuel i) = true ∧
      i ≤ backScanGo s pos fuel i ∧
      ∀ j, i ≤ j → j < backScanGo s pos fuel i → isBoundary s (pos - j) = false := by
  intro fuel
  induction fuel with
  | zero =>
    intro i hex
    obtain ⟨j, hij, hji, hb⟩ := hex
    have hj : j = i := by omega
    rw [hj] at hb
    simp only [backScanGo]
    exact ⟨hb, Nat.le_refl i, fun j h1 h2 => absurd h2 (Nat.not_lt.mpr h1)⟩
  | succ fuel ih =>
    intro i hex
    by_cases hb : isBoundary s (pos - i) = true
    · simp only [backScanGo, if_pos hb]
      exact ⟨hb, Nat.le_refl i, fun j h1 h2 => absurd h2 (Nat.not_lt.mpr h1)⟩
    · have hbf : isBoundary s (pos - i) = false := by
        cases hv : isBoundary s (pos - i)
        · rfl
        · exact absurd hv hb
      simp only [backScanGo, if_neg hb]
      obtain ⟨j, hij, hji, hjb⟩ := hex
      have hij' : i + 1 ≤ j := by
        rcases Nat.eq_or_lt_of_le hij with heq | hlt
        · rw [← heq] at hjb
          rw [hjb] at hbf
          cases hbf
        · omega
      have hrec := ih (i + 1) ⟨j, hij', by omega, hjb⟩
      refine ⟨hrec.1, Nat.le_trans (Nat.le_succ i) hrec.2.1, ?_⟩
      intro j' h1 h2
      by_cases hj'i : j' = i
      · subst hj'i; exact hbf
      · exact hrec.2.2 j' (by omega) h2

theorem fwdScanGo_spec (s : List Char) (pos : Nat) :
    ∀ fuel i, (∃ j, i ≤ j ∧ j ≤ i + fuel ∧ isBoundary s (pos + j) = true) →
      isBoundary s (pos + fwdScanGo s pos fuel i) = true ∧
      i ≤ fwdScanGo s pos fuel i ∧
      ∀ j, i ≤ j → j < fwdScanGo s pos fuel i → isBoundary s (pos + j) = false := by
  intro fuel
  induction fuel with
  | zero =>
    intro i hex
    obtain ⟨j, hij, hji, hb⟩ := hex
    have hj : j = i := by omega
    rw [hj] at hb
    simp only [fwdScanGo]
    exact ⟨hb, Nat.le_refl i, fun j h1 h2 => absurd h2 (Nat.not_lt.mpr h1)⟩
  | succ fuel ih =>
    intro i hex
    by_cases hb : isBoundary s (pos + i) = true
    · simp only [fwdScanGo, if_pos hb]
      exact ⟨hb, Nat.le_refl i, fun j h1 h2 => absurd h2 (Nat.not_lt.mpr h1)⟩
    · have hbf : isBoundary s (pos + i) = false := by
        cases hv : isBoundary s (pos + i)
        · rfl
        · exact absurd hv hb
      simp only [fwdScanGo, if_neg hb]
      obtain ⟨j, hij, hji, hjb⟩ := hex
      have hij' : i + 1 ≤ j := by
        rcases Nat.eq_or_lt_of_le hij with heq | hlt
        · rw [← heq] at hjb
          rw [hjb] at hbf
          cases hbf
        · omega
      have hrec := ih (i + 1) ⟨j, hij', by omega, hjb⟩
      refine ⟨hrec.1, Nat.le_trans (Nat.le_succ i) hrec.2.1, ?_⟩
      intro j' h1 h2
      by_cases hj'i : j' = i
      · subst hj'i; exact hbf
      · exact hrec.2.2 j' (by omega) h2

theorem backScan_eq (s : List Char) {k : Nat} (hk1 : 1 ≤ k) (hk : k ≤ s.length) :
    utf8Len (s.take k) - backScan s (utf8Len (s.take k)) = utf8Len (s.take (k - 1)) ∧
    backScan s (utf8Len (s.take k)) = utf8Len (s.take k) - utf8Len (s.take (k - 1)) := by
  have hk1lt : k - 1 < s.length := by omega
  have hstep : utf8Len (s.take (k - 1)) < utf8Len (s.take k) := by
    have := utf8Len_take_lt s hk1lt
    have heq : k - 1 + 1 = k := by omega
    rw [heq] at this
    exact this
  have hsz : 1 ≤ utf8Len (s.take k) - utf8Len (s.take (k - 1)) := by omega
  have hszle : utf8Len (s.take k) - utf8Len (s.take (k - 1)) ≤ utf8Len (s.take k) := by
    omega
  have hbprev : isBoundary s
      (utf8Len (s.take k) - (utf8Len (s.take k) - utf8Len (s.take (k - 1)))) = true := by
    have heq : utf8Len (s.take k) - (utf8Len (s.take k) - utf8Len (s.take (k - 1))) =
        utf8Len (s.take (k - 1)) := by omega
    rw [heq]
    exact isBoundary_utf8Len_take s (by omega)
  have hspec := backScanGo_spec s (utf8Len (s.take k)) (utf8Len (s.take k)) 1
    ⟨utf8Len (s.take k) - utf8Len (s.take (k - 1)), hsz, by omega, hbprev⟩
  obtain ⟨hbr0, hr10, hmin0⟩ := hspec
  have hbr : isBoundary s (utf8Len (s.take k) - backScan s (utf8Len (s.take k))) = true := hbr0
  have hr1 : 1 ≤ backScan s (utf8Len (s.take k)) := hr10
  have hmin : ∀ j, 1 ≤ j → j < backScan s (utf8Len (s.take k)) →
      isBoundary s (utf8Len (s.take k) - j) = false := hmin0
  have hrle : backScan s (utf8Len (s.take k)) ≤
      utf8Len (s.take k) - utf8Len (s.take (k - 1)) := by
    by_contra hgt
    have := hmin (utf8Len (s.take k) - utf8Len (s.take (k - 1))) hsz (by omega)
    rw [this] at hbprev
    cases hbprev
  obtain ⟨k', hk'le, hk'len⟩ := (isBoundary_iff s _).mp hbr
  have hlow : utf8Len (s.take (k - 1)) ≤ utf8Len (s.take k') := by
    rw [hk'len]
    omega
  have hhigh : utf8Len (s.take k') < utf8Len (s.take k) := by
    rw [hk'len]
    omega
  have hkk' : utf8Len (s.take k') = utf8Len (s.take (k - 1)) := by
    rcases Nat.lt_or_ge k' k with hlt | hge
    · have : k' ≤ k - 1 := by omega
      have := utf8Len_take_mono s this
      omega
    · have := utf8Len_take_mono s hge
      omega
  constructor
  · omega
  · omega

theorem fwdScan_eq (s : List Char) {k : Nat} (hk : k < s.length) :
    utf8Len (s.take k) + fwdScan s (utf8Len (s.take k)) = utf8Len (s.take (k + 1)) := by
  have hstep : utf8Len (s.take k) < utf8Len (s.take (k + 1)) := utf8Len_take_lt s hk
  have hsz : 1 ≤ utf8Len (s.take (k + 1)) - utf8Len (s.take k) := by omega
  have hfits : utf8Len (s.take (k + 1)) - utf8Len (s.take k) ≤ 1 + utf8Len s := by
    have := utf8Len_take_le s (k + 1)
    omega
  have hbnext : isBoundary s
      (utf8Len (s.take k) + (utf8Len (s.take (k + 1)) - utf8Len (s.take k))) = true := by
    have heq : utf8Len (s.take k) + (utf8Len (s.take (k + 1)) - utf8Len (s.take k)) =
        utf8Len (s.take (k + 1)) := by omega
    rw [heq]
    exact isBoundary_utf8Len_take s (by omega)
  have hspec := fwdScanGo_spec s (utf8Len (s.take k)) (utf8Len s) 1
    ⟨utf8Len (s.take (k + 1)) - utf8Len (s.take k), hsz, hfits, hbnext⟩
  obtain ⟨hbr0, hr10, hmin0⟩ := hspec
  have hbr : isBoundary s (utf8Len (s.take k) + fwdScan s (utf8Len (s.take k))) = true := hbr0
  have hr1 : 1 ≤ fwdScan s (utf8Len (s.take k)) := hr10
  have hmin : ∀ j, 1 ≤ j → j < fwdScan s (utf8Len (s.take k)) →
      isBoundary s (utf8Len (s.take k) + j) = false := hmin0
  have hrle : fwdScan s (utf8Len (s.take k)) ≤
      utf8Len (s.take (k + 1)) - utf8Len (s.take k) := by
    by_contra hgt
    have := hmin (utf8Len (s.take (k + 1)) - utf8Len (s.take k)) hsz (by omega)
    rw [this] at hbnext
    cases hbnext
  obtain ⟨k', hk'le, hk'len⟩ := (isBoundary_iff s _).mp hbr
  have hlow : utf8Len (s.take k) < utf8Len (s.take k') := by
    rw [hk'len]
    omega
  have hhigh : utf8Len (s.take k') ≤ utf8Len (s.take (k + 1)) := by
    rw [hk'len]
    omega
  have hkk' : utf8Len (s.take k') = utf8Len (s.take (k + 1)) := by
    rcases Nat.lt_or_ge k' (k + 1) with hlt | hge
    · have : k' ≤ k := by omega
      have := utf8Len_take_mono s this
      omega
    · have := utf8Len_take_mono s hge
      omega
  omega

/- ---------------------------------------------------------------------------
   The dual-cursor invariant is preserved by every input operation.
--------------------------------------------------------------------------- -/

theorem InputInv_insertChar (c : Char) (st : InputSt) (h : InputInv st) :
    InputInv (insertChar c st) := by
  obtain ⟨hk, hb⟩ := h
  have hidx : charIdxAt st.input_text st.input_byte_pos = st.input_char_pos := by
    rw [hb]
    exact charIdxAt_utf8Len_take st.input_text hk
  have hlen : (st.input_text.take st.input_char_pos).length = st.input_char_pos := by
    rw [List.length_take]
    omega
  unfold insertChar InputInv
  simp only [hidx]
  constructor
  · simp only [List.length_append, List.length_cons]
    omega
  · have htake : (st.input_text.take st.input_char_pos ++
        c :: st.input_text.drop st.input_char_pos).take (st.input_char_pos + 1) =
        st.input_text.take st.input_char_pos ++ [c] := by
      rw [List.take_append_eq_append_take,
        List.take_of_length_le (by omega : (st.input_text.take st.input_char_pos).length ≤
          st.input_char_pos + 1), hlen]
      have h1 : st.input_char_pos + 1 - st.input_char_pos = 1 := by omega
      rw [h1]
      rfl
    rw [htake, utf8Len_append, hb]
    simp [utf8Len]

theorem InputInv_backspaceOp (st : InputSt) (h : InputInv st) :
    InputInv (backspaceOp st) := by
  obtain ⟨hk, hb⟩ := h
  unfold backspaceOp
  by_cases hpos : 0 < st.input_byte_pos
  · rw [if_pos hpos]
    have hk1 : 1 ≤ st.input_char_pos := by
      by_contra h0
      have h00 : st.input_char_pos = 0 := by omega
      rw [h00] at hb
      simp [utf8Len] at hb
      omega
    have hscan := (backScan_eq st.input_text hk1 hk).1
    have hpos' : st.input_byte_pos - backScan st.input_text st.input_byte_pos =
        utf8Len (st.input_text.take (st.input_char_pos - 1)) := by
      rw [hb]
      exact hscan
    have hidx : charIdxAt st.input_text
        (st.input_byte_pos - backScan st.input_text st.input_byte_pos) =
        st.input_char_pos - 1 := by
      rw [hpos']
      exact charIdxAt_utf8Len_take st.input_text (by omega)
    simp only [hidx]
    constructor
    · simp only [List.length_append, List.length_take, List.length_drop]
      omega
    · have hsucc : st.input_char_pos - 1 + 1 = st.input_char_pos := by omega
      have hlen : (st.input_text.take (st.input_char_pos - 1)).length =
          st.input_char_pos - 1 := by
        rw [List.length_take]
        omega
      have htake : (st.input_text.take (st.input_char_pos - 1) ++
          st.input_text.drop (st.input_char_pos - 1 + 1)).take (st.input_char_pos - 1) =
          st.input_text.take (st.input_char_pos - 1) := by
        rw [List.take_append_eq_append_take,
          List.take_of_length_le (by omega : (st.input_text.take (st.input_char_pos - 1)).length ≤
            st.input_char_pos - 1)]
        rw [hlen]
        have h0 : st.input_char_pos - 1 - (st.input_char_pos - 1) = 0 := by omega
        rw [h0]
        simp
      rw [htake]
      exact hpos'
  · rw [if_neg hpos]
    exact ⟨hk, hb⟩

theorem InputInv_moveLeft (st : InputSt) (h : InputInv st) :
    InputInv (moveLeft st) := by
  obtain ⟨hk, hb⟩ := h
  unfold moveLeft
  by_cases hpos : 0 < st.input_byte_pos
  · rw [if_pos hpos]
    have hk1 : 1 ≤ st.input_char_pos := by
      by_contra h0
      have h00 : st.input_char_pos = 0 := by omega
      rw [h00] at hb
      simp [utf8Len] at hb
      omega
    have hscan := (backScan_eq st.input_text hk1 hk).1
    constructor
    · simp only
      omega
    · simp only
      rw [hb]
      exact hscan
  · rw [if_neg hpos]
    exact ⟨hk, hb⟩

theorem InputInv_moveRight (st : InputSt) (h : InputInv st) :
    InputInv (moveRight st) := by
  obtain ⟨hk, hb⟩ := h
  unfold moveRight
  by_cases hpos : st.input_byte_pos < utf8Len st.input_text
  · rw [if_pos hpos]
    have hklt : st.input_char_pos < st.input_text.length := by
      by_contra h0
      have hge : st.input_text.length ≤ st.input_char_pos := by omega
      rw [hb, utf8Len_take_full st.input_text hge] at hpos
      exact Nat.lt_irrefl _ hpos
    have hscan := fwdScan_eq st.input_text hklt
    constructor
    · simp only
      omega
    · simp only
      rw [hb]
      exact hscan
  · rw [if_neg hpos]
    exact ⟨hk, hb⟩

theorem InputInv_step (op : InputOp) (st : InputSt) (h : InputInv st) :
    InputInv (inputStep op st) := by
  cases op with
  | ins c => exact InputInv_insertChar c st h
  | backspace => exact InputInv_backspaceOp st h
  | left => exact InputInv_moveLeft st h
  | right => exact InputInv_moveRight st h

theorem InputInv_applyInputOps (ops : List InputOp) :
    InputInv (applyInputOps ops inputInit) := by
  have hgen : ∀ st, InputInv st → InputInv (applyInputOps ops st) := by
    induction ops with
    | nil => intro st h; exact h
    | cons op rest ih =>
      intro st h
      exact ih (inputStep op st) (InputInv_step op st h)
  exact hgen inputInit (by decide)

/-- C5: starting from the empty input buffer, after every sequence of insert,
    backspace, move-left and move-right operations (any characters, multi-byte
    included) the byte cursor sits on a UTF-8 code-point boundary — it is the
    byte length of the prelude of exactly input_char_pos scalar values; moreover
    backspace and move-left are no-ops at byte position 0, and move-right is a
    no-op at the end of the text. -/
theorem C5_input_cursor_invariants :
    (∀ ops : List InputOp, InputInv (applyInputOps ops inputInit)) ∧
    (∀ st : InputSt, st.input_byte_pos = 0 → backspaceOp st = st ∧ moveLeft st = st) ∧
    (∀ st : InputSt, st.input_byte_pos = utf8Len st.input_text → moveRight st = st) := by
  refine ⟨InputInv_applyInputOps, ?_, ?_⟩
  · intro st h
    constructor
    · unfold backspaceOp
      rw [if_neg (by omega)]
    · unfold moveLeft
      rw [if_neg (by omega)]
  · intro st h
    unfold moveRight
    rw [if_neg (by omega)]

/-- Witness for C5 on a concrete multi-byte editing session and at the guards. -/
theorem C5_input_cursor_invariants_witness :
    InputInv (applyInputOps [InputOp.ins 'é', InputOp.ins '猫', InputOp.left,
      InputOp.right, InputOp.ins 'x', InputOp.backspace, InputOp.backspace] inputInit) ∧
    (backspaceOp inputInit = inputInit ∧ moveLeft inputInit = inputInit) ∧
    moveRight ⟨['a'], 1, 1⟩ = ⟨['a'], 1, 1⟩ := by
  refine ⟨?_, ?_, ?_⟩
  · exact C5_input_cursor_invariants.1 [InputOp.ins 'é', InputOp.ins '猫', InputOp.left,
      InputOp.right, InputOp.ins 'x', InputOp.backspace, InputOp.backspace]
  · exact C5_input_cursor_invariants.2.1 inputInit rfl
  · exact C5_input_cursor_invariants.2.2 ⟨['a'], 1, 1⟩ (by decide)

/- ---------------------------------------------------------------------------
   Enter, redact, backfill, and cursor-math claims.
--------------------------------------------------------------------------- -/

theorem handle_new_message_preserves_flags (e : Ev) (st : Channel × Option Nat) :
    (handle_new_message e st).1.at_top = st.1.at_top ∧
    (handle_new_message e st).1.messages_prev_batch = st.1.messages_prev_batch := by
  obtain ⟨ch, sel⟩ := st
  by_cases hc : mapContains ch.messages e.event_id = true
  · rw [handle_new_message_dup e (ch, sel) hc]
    exact ⟨rfl, rfl⟩
  · have hnc : mapContains ch.messages e.event_id = false := by
      cases hv : mapContains ch.messages e.event_id
      · rfl
      · exact absurd hv hc
    cases hrel : e.relates_to with
    | some edit =>
      rw [handle_new_message_edit e (ch, sel) edit hnc hrel]
      constructor <;>
        (simp only [applyEditEvent]
         split <;> first | rfl | (split <;> first | rfl | (split <;> rfl)))
    | none =>
      rw [handle_new_message_new e (ch, sel) hnc hrel]
      cases hpe : mapGet ch.message_edits e.event_id with
      | none =>
        constructor <;> (simp only [insertNewMessage, hpe])
      | some pe =>
        constructor <;> (simp only [insertNewMessage, hpe])

theorem applyEvents_preserves_flags (evs : List Ev) (st : Channel × Option Nat) :
    (applyEvents evs st).1.at_top = st.1.at_top ∧
    (applyEvents evs st).1.messages_prev_batch = st.1.messages_prev_batch := by
  induction evs generalizing st with
  | nil => exact ⟨rfl, rfl⟩
  | cons e rest ih =>
    have h1 := handle_new_message_preserves_flags e st
    have h2 := ih (handle_new_message e st)
    exact ⟨h2.1.trans h1.1, h2.2.trans h1.2⟩

/-- C6: Enter with text exactly "/quit" in Normal or Insert mode signals global
    shutdown (the RUNNING flag becomes false) with the state untouched and no
    send dispatched; Enter with non-empty text different from "/quit" clears the
    input buffer, keeps the mode and every other field, and dispatches a send to
    the current channel exactly when one is selected (and none when none is). -/
theorem C6_enter_quit_and_send :
    (∀ (st : AppState) (r : NetResult),
      (st.mode = Mode.normal ∨ st.mode = Mode.insert) →
      st.input_text = quitText →
      uiEnterStep st r = some (st, false, none)) ∧
    (∀ st : AppState,
      (st.mode = Mode.normal ∨ st.mode = Mode.insert) →
      st.input_text ≠ quitText →
      st.input_text ≠ [] →
      ∀ (cid : RoomId) (chn : Channel),
        st.current_channel = some cid →
        mapGet st.channels cid = some chn →
        uiEnterStep st NetResult.ok =
          some ({ st with input_text := [], input_char_pos := 0, input_byte_pos := 0 },
            true, some (cid, st.input_text))) ∧
    (∀ st : AppState,
      (st.mode = Mode.normal ∨ st.mode = Mode.insert) →
      st.input_text ≠ quitText →
      st.input_text ≠ [] →
      st.current_channel = none →
      uiEnterStep st NetResult.ok =
        some ({ st with input_text := [], input_char_pos := 0, input_byte_pos := 0 },
          true, none)) := by
  refine ⟨?_, ?_, ?_⟩
  · intro st r _ hq
    unfold uiEnterStep
    rw [if_pos hq]
  · intro st _ hq hne cid chn hcid hchn
    unfold uiEnterStep
    rw [if_neg hq, if_pos hne, hcid]
    simp only [hchn]
  · intro st _ hq hne hnone
    unfold uiEnterStep
    rw [if_neg hq, if_pos hne, hnone]

/-- Witness for C6 on the fixture state ("hi" typed, channel 1 selected). -/
theorem C6_enter_quit_and_send_witness :
    uiEnterStep { exApp with input_text := quitText } NetResult.ok =
      some ({ exApp with input_text := quitText }, false, none) ∧
    uiEnterStep exApp NetResult.ok =
      some ({ exApp with input_text := [], input_char_pos := 0, input_byte_pos := 0 },
        true, some (1, "hi".data)) := by
  constructor
  · exact C6_enter_quit_and_send.1 { exApp with input_text := quitText } NetResult.ok
      (Or.inl rfl) rfl
  · exact C6_enter_quit_and_send.2.1 exApp (Or.inl rfl) (by decide) (by decide) 1
      exChannel rfl (by decide)

/-- C8: on a pagination attempt with at_top = false, a successful fetch sets
    at_top to true exactly when no continuation token came back, stores the
    returned token, and applies each returned event through the normal
    apply-new-message fold in page order; a failed fetch leaves the channel and
    the selection entirely unchanged. -/
theorem C8_backfill :
    (∀ (ch : Channel) (sel : Option Nat) (tok : Option String) (chunk : List Ev),
      ch.at_top = false →
      applyBackfill (ch, sel) (some (tok, chunk)) =
        applyEvents chunk
          ({ ch with at_top := tok.isNone, messages_prev_batch := tok }, sel) ∧
      (applyBackfill (ch, sel) (some (tok, chunk))).1.at_top = tok.isNone ∧
      (applyBackfill (ch, sel) (some (tok, chunk))).1.messages_prev_batch = tok) ∧
    (∀ (ch : Channel) (sel : Option Nat),
      ch.at_top = false →
      applyBackfill (ch, sel) none = (ch, sel)) := by
  constructor
  · intro ch sel tok chunk htop
    have hred : applyBackfill (ch, sel) (some (tok, chunk)) =
        applyEvents chunk
          ({ ch with at_top := tok.isNone, messages_prev_batch := tok }, sel) := by
      unfold applyBackfill
      simp [htop]
    refine ⟨hred, ?_, ?_⟩
    · rw [hred]
      exact (applyEvents_preserves_flags chunk _).1
    · rw [hred]
      exact (applyEvents_preserves_flags chunk _).2
  · intro ch sel htop
    unfold applyBackfill
    simp [htop]

/-- Witness for C8: a one-event page with no further token, and a failed fetch. -/
theorem C8_backfill_witness :
    exChannel.at_top = false ∧
    applyBackfill (exChannel, none) (some (none, [exEv 9 500 "old"])) =
      applyEvents [exEv 9 500 "old"]
        ({ exChannel with at_top := true, messages_prev_batch := none }, none) ∧
    (applyBackfill (exChannel, none) (some (none, [exEv 9 500 "old"]))).1.at_top = true ∧
    applyBackfill (exChannel, none) none = (exChannel, none) := by
  refine ⟨rfl, ?_, ?_, ?_⟩
  · exact (C8_backfill.1 exChannel none none [exEv 9 500 "old"] rfl).1
  · exact (C8_backfill.1 exChannel none none [exEv 9 500 "old"] rfl).2.1
  · exact C8_backfill.2 exChannel none rfl

/-- C9 as claimed is false for char_pos at 2^16: the implementation casts the
    usize char_pos to u16 before the wrap arithmetic, so char_pos = 65536 wraps
    to 0 and takes the boundary arm, while the spec formula (m = 65536 mod 10 =
    6) places the cursor at column 7. -/
theorem C9_counterexample :
    cursorPosCode 65536 12 0 0 = (11, 6554) ∧
    cursorPosSpec 65536 10 0 0 = (7, 6554) ∧
    cursorPosCode 65536 12 0 0 ≠ cursorPosSpec 65536 10 0 0 := by
  refine ⟨?_, ?_, ?_⟩ <;> decide

/-- C9 amended: for char_pos below 2^16 and a widget whose coordinates fit the
    16-bit space (width at least 3 so the wrap width w = width - 2 is positive),
    the rendered cursor equals the spec formula; in particular with w = 10
    char_pos 10 sits at column w of row (char_pos - 1) / w and char_pos 11 at
    column 1 of the next row (screen cells (11, 1) and (2, 2) at origin 0,0). -/
theorem C9_cursor_math (char_pos width x y : Nat)
    (hcp : char_pos < 65536)
    (hw : 3 ≤ width) (hwlt : width < 65536)
    (hx : x + width ≤ 65536)
    (hy : y + char_pos / (width - 2) + 2 ≤ 65536) :
    cursorPosCode char_pos width x y = cursorPosSpec char_pos (width - 2) x y ∧
    cursorPosCode 10 12 0 0 = (11, 1) ∧ cursorPosCode 11 12 0 0 = (2, 2) := by
  refine ⟨?_, by decide, by decide⟩
  unfold cursorPosCode cursorPosSpec u16add u16sub
  have hcp' : char_pos % 65536 = char_pos := Nat.mod_eq_of_lt hcp
  have hw2 : (width + 65536 - 2) % 65536 = width - 2 := by omega
  rw [hcp', hw2]
  by_cases hm : char_pos % (width - 2) = 0 ∧ char_pos ≠ 0
  · rw [if_pos hm, if_pos hm]
    have hsub1 : (char_pos + 65536 - 1) % 65536 = char_pos - 1 := by omega
    rw [hsub1]
    have hqle : (char_pos - 1) / (width - 2) ≤ char_pos / (width - 2) :=
      Nat.div_le_div_right (by omega)
    simp only [Prod.mk.injEq]
    constructor
    · omega
    · have hyf : y + (char_pos - 1) / (width - 2) < 65536 := by omega
      rw [Nat.mod_eq_of_lt hyf]
      have hyf1 : y + (char_pos - 1) / (width - 2) + 1 < 65536 := by omega
      rw [Nat.mod_eq_of_lt hyf1]
  · rw [if_neg hm, if_neg hm]
    have hmlt : char_pos % (width - 2) < width - 2 := Nat.mod_lt _ (by omega)
    simp only [Prod.mk.injEq]
    constructor
    · omega
    · have hyc : y + char_pos / (width - 2) < 65536 := by omega
      rw [Nat.mod_eq_of_lt hyc]
      have hyc1 : y + char_pos / (width - 2) + 1 < 65536 := by omega
      rw [Nat.mod_eq_of_lt hyc1]

/-- Witness for C9 amended at char_pos 11, width 12, origin (5, 7). -/
theorem C9_cursor_math_witness :
    cursorPosCode 11 12 5 7 = cursorPosSpec 11 10 5 7 ∧
    cursorPosCode 10 12 0 0 = (11, 1) ∧ cursorPosCode 11 12 0 0 = (2, 2) :=
  C9_cursor_math 11 12 5 7 (by decide) (by decide) (by decide) (by decide) (by decide)

/-- C10 as claimed is false: with a channel selected and the text "hi", a failed
    send makes the Enter handler hit .unwrap() and abort (the none outcome)
    instead of absorbing the error; the redact handler behaves the same. -/
theorem C10_counterexample :
    uiEnterStep exApp NetResult.err = none ∧
    uiRedactStep { exApp with mode := Mode.scrollMessages } true NetResult.err = none := by
  constructor <;> decide

/-- C10 amended: a failed backfill fetch is absorbed with no report and the
    whole local state unchanged; a failed send or redact is NOT absorbed — the
    handler unwraps the error and the event task aborts (the none outcome) —
    while a redact that does not fail never changes local state. -/
theorem C10_failure_semantics :
    (∀ st : Channel × Option Nat, applyBackfill st none = st) ∧
    (∀ (st : AppState) (cid : RoomId) (chn : Channel),
      st.input_text ≠ quitText → st.input_text ≠ [] →
      st.current_channel = some cid → mapGet st.channels cid = some chn →
      uiEnterStep st NetResult.err = none) ∧
    (∀ (st : AppState) (cid : RoomId) (chn : Channel) (index : Nat) (mid : EventId),
      st.current_channel = some cid → mapGet st.channels cid = some chn →
      st.messages_state = some index →
      chn.message_ids.get? (chn.message_ids.length - index - 1) = some mid →
      uiRedactStep st true NetResult.err = none) ∧
    (∀ (st : AppState) (joined : Bool) (r : NetResult) (st' : AppState),
      uiRedactStep st joined r = some st' → st' = st) := by
  refine ⟨?_, ?_, ?_, ?_⟩
  · intro st
    unfold applyBackfill
    split
    · rfl
    · rfl
  · intro st cid chn hq hne hcid hchn
    unfold uiEnterStep
    rw [if_neg hq, if_pos hne, hcid]
    simp only [hchn]
  · intro st cid chn index mid hcid hchn hms hgid
    unfold uiRedactStep
    rw [hcid]
    rw [List.get?_eq_getElem?] at hgid
    simp [hchn, hms, hgid]
  · intro st joined r st' h
    unfold uiRedactStep at h
    cases hcc : st.current_channel with
    | none =>
      simp only [hcc] at h
      exact (Option.some.inj h).symm
    | some cid =>
      simp only [hcc] at h
      cases hchn : mapGet st.channels cid with
      | none =>
        simp only [hchn] at h
        exact (Option.some.inj h).symm
      | some chn =>
        simp only [hchn] at h
        by_cases hj : joined = true
        · rw [if_pos hj] at h
          cases hms : st.messages_state with
          | none =>
            simp only [hms] at h
            exact (Option.some.inj h).symm
          | some index =>
            simp only [hms] at h
            cases hgid : chn.message_ids.get? (chn.message_ids.length - index - 1) with
            | none =>
              simp only [hgid] at h
              exact (Option.some.inj h).symm
            | some mid =>
              simp only [hgid] at h
              cases r with
              | err => simp at h
              | ok => exact (Option.some.inj h).symm
        · rw [if_neg hj] at h
          exact (Option.some.inj h).symm

/-- Witness for C10 amended at the fixtures. -/
theorem C10_failure_semantics_witness :
    applyBackfill (exChannel, some 1) none = (exChannel, some 1) ∧
    uiEnterStep exApp NetResult.err = none ∧
    uiRedactStep { exApp with mode := Mode.scrollMessages } true NetResult.err = none ∧
    ({ exApp with mode := Mode.scrollMessages } : AppState) =
      { exApp with mode := Mode.scrollMessages } := by
  refine ⟨?_, ?_, ?_, ?_⟩
  · exact C10_failure_semantics.1 (exChannel, some 1)
  · exact C10_failure_semantics.2.1 exApp 1 exChannel (by decide) (by decide) rfl (by decide)
  · exact C10_failure_semantics.2.2.1 { exApp with mode := Mode.scrollMessages } 1
      exChannel 0 3 rfl (by decide) rfl (by decide)
  · exact C10_failure_semantics.2.2.2 { exApp with mode := Mode.scrollMessages } true
      NetResult.ok { exApp with mode := Mode.scrollMessages } (by decide)

end IloToki
